import Mathlib

/-!
# pure_flex: HDLC-like framing with bit stuffing

A shallow embedding of `src/src/protocol.c` (with `src/include/protocol.h`) and
theorems about it.

Conventions of the embedding:

* a byte is a `Nat` (values of `uint8_t` are the naturals below 256), a bit is a
  `Bool` (every bit of the program is produced by `& 1` and only tested for
  being non-zero);
* `int` variables that can become negative (`bit_pos`) are `Int`;
* the output `FILE` is an `OStream`: the bytes written so far and the number of
  further `putc` calls that will succeed; a failing call (`return -1`) is `none`;
* the input `FILE` is the list of bytes not yet read; `getc` returns `EOF` on the
  empty list;
* a `(buf, nbyte)` pair is a list and its length;
* the arrays `frame_bits` and `payload_bits` with their fill counters
  `frame_len` and `payload_len` are lists and their lengths.
-/

namespace PureFlex

/-! ## Constants -/

/-- The constant `MAX_MESSAGE_LEN` of `protocol.h`. -/
def MAX_MESSAGE_LEN : Nat := 256

/-- The enumerator `FRAME_BITS_MAX` of `read_message`. -/
def FRAME_BITS_MAX : Nat := MAX_MESSAGE_LEN * 10 + 32

/-- The constant `FLAG` of `write_flag`, also the literal `0x7E` that `read_message`
compares its window with. -/
def FLAG : Nat := 0x7E

/-! ## Output side -/

/-- The output `FILE`: bytes already written, and how many more `putc` calls succeed. -/
structure OStream where
  data : List Nat
  room : Nat
deriving DecidableEq, Repr

/-- The library call `putc(c, stream)`: appends one byte, or fails (`EOF`) when the
stream accepts no more. -/
def putc (c : Nat) (s : OStream) : Option OStream :=
  if s.room = 0 then none else some { data := s.data ++ [c], room := s.room - 1 }

/-- The writer cursor threaded through `write_bit`: the stream and the locals
`out_byte` and `bit_pos` of `write_message`. -/
structure Writer where
  stream : OStream
  out_byte : Nat
  bit_pos : Int
deriving DecidableEq, Repr

/-- The function `write_bit`: set the bit at `bit_pos` when `bit` is non-zero, step the
position down, and on passing below 0 flush the byte and reset the cursor. -/
def write_bit (w : Writer) (bit : Bool) : Option Writer :=
  let out_byte := if bit then w.out_byte ||| ((1 <<< w.bit_pos.toNat) % 256) else w.out_byte
  let bit_pos := w.bit_pos - 1
  if bit_pos < 0 then
    match putc out_byte w.stream with
    | none => none
    | some s => some { stream := s, out_byte := 0, bit_pos := 7 }
  else some { stream := w.stream, out_byte := out_byte, bit_pos := bit_pos }

/-- The loop of `write_flag`, `for (i = 7; i >= 0; --i)`: the argument `n` is `i + 1`. -/
def write_flag_from : Nat → Writer → Option Writer
  | 0, w => some w
  | i + 1, w =>
    match write_bit w (((FLAG >>> i) &&& 1) != 0) with
    | none => none
    | some w1 => write_flag_from i w1

/-- The function `write_flag`. -/
def write_flag (w : Writer) : Option Writer := write_flag_from 8 w

/-- The loop `while (*bit_pos >= 0)` of `pad_ones_to_byte`. -/
def pad_ones_loop (w : Writer) : Option Writer :=
  if hp : 0 ≤ w.bit_pos then
    match h : write_bit w true with
    | none => none
    | some w1 => pad_ones_loop w1
  else some w
termination_by 8 * w.stream.room + w.bit_pos.toNat
decreasing_by
  unfold write_bit at h
  simp only at h
  by_cases hneg : w.bit_pos - 1 < 0
  · rw [if_pos hneg] at h
    unfold putc at h
    by_cases hroom : w.stream.room = 0
    · simp [hroom] at h
    · simp only [hroom, if_false, Option.some.injEq] at h
      subst h
      simp only
      omega
  · rw [if_neg hneg] at h
    simp only [Option.some.injEq] at h
    subst h
    simp only
    omega

/-- The function `pad_ones_to_byte`. -/
def pad_ones_to_byte (w : Writer) : Option Writer :=
  if w.bit_pos ≠ 7 then pad_ones_loop w else some w

/-- One turn of the inner loop of `write_message` (lines 60-74): write the payload bit,
count it, and write a stuffed 0 when the count reaches 5. -/
def write_message_bit (bit : Bool) (w : Writer) (ones : Nat) : Option (Writer × Nat) :=
  match write_bit w bit with
  | none => none
  | some w1 =>
    if bit then
      if ones + 1 = 5 then
        match write_bit w1 false with
        | none => none
        | some w2 => some (w2, 0)
      else some (w1, ones + 1)
    else some (w1, 0)

/-- The inner loop of `write_message`, `for (j = 7; j >= 0; --j)`: the argument `n`
is `j + 1`. -/
def write_message_byte (b : Nat) : Nat → Writer → Nat → Option (Writer × Nat)
  | 0, w, ones => some (w, ones)
  | j + 1, w, ones =>
    match write_message_bit (((b >>> j) &&& 1) != 0) w ones with
    | none => none
    | some (w1, ones1) => write_message_byte b j w1 ones1

/-- The outer loop of `write_message`, `for (i = 0; i < nbyte; ++i)`. -/
def write_message_bytes : List Nat → Writer → Nat → Option (Writer × Nat)
  | [], w, ones => some (w, ones)
  | b :: rest, w, ones =>
    match write_message_byte b 8 w ones with
    | none => none
    | some (w1, ones1) => write_message_bytes rest w1 ones1

/-- The function `write_message`: `some (nbyte, stream)` on success, `none` for `-1`. -/
def write_message (stream : OStream) (buf : List Nat) : Option (Nat × OStream) :=
  match write_flag { stream := stream, out_byte := 0, bit_pos := 7 } with
  | none => none
  | some w1 =>
    match write_message_bytes buf w1 0 with
    | none => none
    | some (w2, _) =>
      match write_flag w2 with
      | none => none
      | some w3 =>
        match pad_ones_to_byte w3 with
        | none => none
        | some w4 => some (buf.length, w4.stream)

/-! ## Input side -/

/-- The reader cursor threaded through `read_bit`: the unread bytes of the stream and
the locals `curr_byte` and `bit_pos` of `read_message`. -/
structure Reader where
  stream : List Nat
  curr_byte : Nat
  bit_pos : Int
deriving DecidableEq, Repr

/-- The refill at the head of `read_bit` (lines 90-97): when the current byte is used
up, fetch the next one with `getc`; `none` at end of stream. -/
def read_bit_refill (r : Reader) : Option Reader :=
  if r.bit_pos < 0 then
    match r.stream with
    | [] => none
    | c :: rest => some { stream := rest, curr_byte := c &&& 0xFF, bit_pos := 7 }
  else some r

/-- The function `read_bit`: refill if needed, then take the bit at `bit_pos` and step
the position down. -/
def read_bit (r : Reader) : Option (Bool × Reader) :=
  match read_bit_refill r with
  | none => none
  | some r1 =>
    some (((r1.curr_byte >>> r1.bit_pos.toNat) &&& 1) != 0, { r1 with bit_pos := r1.bit_pos - 1 })

/-- The number of bits the reader can still deliver. -/
def Reader.avail (r : Reader) : Nat := (r.bit_pos + 1).toNat + 8 * r.stream.length

/-- The kinds of failure of `read_message`, one per diagnostic it prints. -/
inductive Diag where
  /-- "Read error: start flag not found" -/
  | SyncError
  /-- "Read error: unexpected EOF inside frame" -/
  | UnexpectedEOF
  /-- "Frame too long" -/
  | FrameTooLong
  /-- "Protocol error: malformed frame" -/
  | FrameError
  /-- "Protocol error: invalid sequence of ones" -/
  | ProtocolError
  /-- "Payload too big" -/
  | PayloadTooBig
  /-- "Payload is not a whole number of bytes" -/
  | AlignmentError
  /-- "Payload exceeds MAX_MESSAGE_LEN" -/
  | OversizeError
deriving DecidableEq, Repr

/-- The update of the sliding window: `((window << 1) | bit) & 0xFF`. -/
def shift_window (window : Nat) (bit : Bool) : Nat :=
  ((window <<< 1) ||| bit.toNat) &&& 0xFF

/-- The first loop of `read_message` (lines 120-130): read bits until the window is
`0x7E`; `none` when the stream ends first. -/
def find_start_flag (r : Reader) (window : Nat) : Option Reader :=
  match h : read_bit r with
  | none => none
  | some (bit, r1) =>
    if shift_window window bit = FLAG then some r1
    else find_start_flag r1 (shift_window window bit)
termination_by r.avail
decreasing_by
  unfold read_bit read_bit_refill at h
  by_cases hneg : r.bit_pos < 0
  · rw [if_pos hneg] at h
    cases hs : r.stream with
    | nil => simp [hs] at h
    | cons c rest =>
      simp only [hs, Option.some.injEq, Prod.mk.injEq] at h
      obtain ⟨-, rfl⟩ := h
      simp only [Reader.avail, hs, List.length_cons]
      omega
  · rw [if_neg hneg] at h
    simp only [Option.some.injEq, Prod.mk.injEq] at h
    obtain ⟨-, rfl⟩ := h
    simp only [Reader.avail]
    omega

/-- The second loop of `read_message` (lines 135-155): store bits until the window is
`0x7E`, then drop the 8 flag bits. A failure carries the reader it stopped at. -/
def capture_frame (r : Reader) (frame_bits : List Bool) (window : Nat) :
    Except (Diag × Reader) (List Bool × Reader) :=
  match h : read_bit r with
  | none => .error (Diag.UnexpectedEOF, r)
  | some (bit, r1) =>
    if frame_bits.length = FRAME_BITS_MAX then .error (Diag.FrameTooLong, r1)
    else
      if shift_window window bit = FLAG then
        if (frame_bits ++ [bit]).length < 8 then .error (Diag.FrameError, r1)
        else .ok ((frame_bits ++ [bit]).take ((frame_bits ++ [bit]).length - 8), r1)
      else capture_frame r1 (frame_bits ++ [bit]) (shift_window window bit)
termination_by r.avail
decreasing_by
  unfold read_bit read_bit_refill at h
  by_cases hneg : r.bit_pos < 0
  · rw [if_pos hneg] at h
    cases hs : r.stream with
    | nil => simp [hs] at h
    | cons c rest =>
      simp only [hs, Option.some.injEq, Prod.mk.injEq] at h
      obtain ⟨-, rfl⟩ := h
      simp only [Reader.avail, hs, List.length_cons]
      omega
  · rw [if_neg hneg] at h
    simp only [Option.some.injEq, Prod.mk.injEq] at h
    obtain ⟨-, rfl⟩ := h
    simp only [Reader.avail]
    omega

/-- The third loop of `read_message` (lines 161-183) over the captured bits, with the
destuffed bits so far and the run counter `ones`. -/
def unstuff : List Bool → List Bool → Nat → Except Diag (List Bool)
  | [], payload_bits, _ => .ok payload_bits
  | bit :: rest, payload_bits, ones =>
    if bit then
      if ones + 1 > 5 then .error Diag.ProtocolError
      else if (payload_bits ++ [true]).length > FRAME_BITS_MAX then .error Diag.PayloadTooBig
      else unstuff rest (payload_bits ++ [true]) (ones + 1)
    else
      if ones = 5 then unstuff rest payload_bits 0
      else if (payload_bits ++ [false]).length > FRAME_BITS_MAX then .error Diag.PayloadTooBig
      else unstuff rest (payload_bits ++ [false]) 0

/-- The inner loop of the last loop of `read_message` (lines 197-200): byte `i` of the
destuffed bits, most significant bit first. -/
def pack_byte (payload_bits : List Bool) (i : Nat) : Nat :=
  (List.range 8).foldl
    (fun b j => ((b <<< 1) ||| (payload_bits.getD (i * 8 + j) false).toNat) % 256) 0

/-- The last loop of `read_message` (lines 196-202): store `out_bytes` bytes in `out`. -/
def pack_bytes (payload_bits : List Bool) (out_bytes : Nat) (out : List Nat) : List Nat :=
  (List.range out_bytes).foldl (fun o i => o.set i (pack_byte payload_bits i)) out

/-- What a call of `read_message` leaves behind: the value returned, the diagnostic
printed (if any), the caller's buffer and the unread bytes of the stream. -/
structure ReadResult where
  ret : Int
  diag : Option Diag
  out : List Nat
  stream : List Nat
deriving DecidableEq, Repr

/-- The function `read_message` on a stream holding the bytes `stream`, with the caller's
buffer holding `out`. -/
def read_message (stream : List Nat) (out : List Nat) : ReadResult :=
  match find_start_flag { stream := stream, curr_byte := 0, bit_pos := -1 } 0 with
  | none => { ret := -1, diag := some Diag.SyncError, out := out, stream := [] }
  | some r1 =>
    match capture_frame r1 [] 0 with
    | .error (d, r2) => { ret := -1, diag := some d, out := out, stream := r2.stream }
    | .ok (frame_bits, r2) =>
      match unstuff frame_bits [] 0 with
      | .error d => { ret := -1, diag := some d, out := out, stream := r2.stream }
      | .ok payload_bits =>
        if payload_bits.length % 8 ≠ 0 then
          { ret := -1, diag := some Diag.AlignmentError, out := out, stream := r2.stream }
        else if payload_bits.length / 8 > MAX_MESSAGE_LEN then
          { ret := -1, diag := some Diag.OversizeError, out := out, stream := r2.stream }
        else
          { ret := (payload_bits.length / 8 : Nat), diag := none,
            out := pack_bytes payload_bits (payload_bits.length / 8) out,
            stream := r2.stream }

/-! ## The bit sequences behind the byte streams

Definitions used to state the properties: the bits a list of bytes stands for, the
bits the stuffing loop hands to `write_bit`, and the two reading loops of
`read_message` seen as functions of the bits still to come. -/

/-- The `n` low bits of `c`, most significant first: bit `n - 1` down to bit 0. -/
def low_bits (c : Nat) : Nat → List Bool
  | 0 => []
  | n + 1 => (((c >>> n) &&& 1) != 0) :: low_bits c n

/-- The 8 bits of a byte, most significant first. -/
def byte_bits (b : Nat) : List Bool := low_bits b 8

/-- The bits of a payload, byte after byte, most significant bit first: the order in
which the loops of `write_message` visit them. -/
def payload_bits_of : List Nat → List Bool
  | [] => []
  | b :: rest => byte_bits b ++ payload_bits_of rest

/-- The 8 bits of the flag `0x7E`: 01111110. -/
def flag_bits : List Bool := byte_bits FLAG

/-- A run of calls of `write_bit`, one per bit, stopping at the first failure. -/
def write_bits : List Bool → Writer → Option Writer
  | [], w => some w
  | bit :: rest, w =>
    match write_bit w bit with
    | none => none
    | some w1 => write_bits rest w1

/-- The bits that the stuffing loop of `write_message` (lines 57-76) hands to `write_bit`
for the payload bits `bits`, entered with the run counter at `ones`. -/
def stuff_bits : List Bool → Nat → List Bool
  | [], _ => []
  | bit :: rest, ones =>
    if bit then
      if ones + 1 = 5 then true :: false :: stuff_bits rest 0
      else true :: stuff_bits rest (ones + 1)
    else false :: stuff_bits rest 0

/-- The run counter `ones` of `write_message` after the payload bits `bits`. -/
def stuff_ones : List Bool → Nat → Nat
  | [], ones => ones
  | bit :: rest, ones =>
    if bit then
      if ones + 1 = 5 then stuff_ones rest 0
      else stuff_ones rest (ones + 1)
    else stuff_ones rest 0

/-- The bits held by a list of stream bytes, in the order `read_bit` delivers them. -/
def stream_bits : List Nat → List Bool
  | [] => []
  | c :: rest => low_bits (c &&& 0xFF) 8 ++ stream_bits rest

/-- The bits a reader will still deliver: the rest of the current byte, then the
stream. -/
def Reader.bits (r : Reader) : List Bool :=
  low_bits r.curr_byte (r.bit_pos + 1).toNat ++ stream_bits r.stream

/-- The first loop of `read_message` as a function of the bits to come: the bits left
after the start flag. -/
def find_start_flag_bits : List Bool → Nat → Option (List Bool)
  | [], _ => none
  | bit :: rest, window =>
    if shift_window window bit = FLAG then some rest
    else find_start_flag_bits rest (shift_window window bit)

/-- The second loop of `read_message` as a function of the bits to come: the captured
frame and the bits left after the end flag. -/
def capture_frame_bits : List Bool → List Bool → Nat → Except Diag (List Bool × List Bool)
  | [], _, _ => .error Diag.UnexpectedEOF
  | bit :: rest, frame_bits, window =>
    if frame_bits.length = FRAME_BITS_MAX then .error Diag.FrameTooLong
    else
      if shift_window window bit = FLAG then
        if (frame_bits ++ [bit]).length < 8 then .error Diag.FrameError
        else .ok ((frame_bits ++ [bit]).take ((frame_bits ++ [bit]).length - 8), rest)
      else capture_frame_bits rest (frame_bits ++ [bit]) (shift_window window bit)

/-- The outcome of `read_message` as a function of the bits of the stream: the value
returned, the diagnostic and the caller's buffer. -/
def read_message_bits (bits : List Bool) (out : List Nat) : Int × Option Diag × List Nat :=
  match find_start_flag_bits bits 0 with
  | none => (-1, some Diag.SyncError, out)
  | some rest =>
    match capture_frame_bits rest [] 0 with
    | .error d => (-1, some d, out)
    | .ok (frame_bits, _) =>
      match unstuff frame_bits [] 0 with
      | .error d => (-1, some d, out)
      | .ok payload_bits =>
        if payload_bits.length % 8 ≠ 0 then (-1, some Diag.AlignmentError, out)
        else if payload_bits.length / 8 > MAX_MESSAGE_LEN then (-1, some Diag.OversizeError, out)
        else ((payload_bits.length / 8 : Nat), none,
          pack_bytes payload_bits (payload_bits.length / 8) out)

/-- The bits `write_message` hands to `write_bit` before padding: flag, stuffed payload
bits, flag. -/
def frame_bits_of (buf : List Nat) : List Bool :=
  flag_bits ++ stuff_bits (payload_bits_of buf) 0 ++ flag_bits

/-- The value of a bit sequence read as a binary numeral, most significant bit first. -/
def bits_value (bits : List Bool) : Nat :=
  bits.foldl (fun acc bit => 2 * acc + bit.toNat) 0

/-- The bytes that pack a bit sequence 8 bits at a time, most significant bit first
(a trailing group of fewer than 8 bits is dropped). -/
def pack_msb_first : List Bool → List Nat
  | b7 :: b6 :: b5 :: b4 :: b3 :: b2 :: b1 :: b0 :: rest =>
    bits_value [b7, b6, b5, b4, b3, b2, b1, b0] :: pack_msb_first rest
  | _ => []

/-- The sliding window agrees with the run counter of the stuffing loop: it ends in a
0-bit (or was reset) followed by exactly `ones` 1-bits, with `ones` at most 4. -/
def window_tracks (window ones : Nat) : Prop :=
  window < 256 ∧ ones ≤ 4 ∧ window % 2 ^ (ones + 1) = 2 ^ ones - 1

/-- The stuffing rule in the words of the specification: a 0-bit is inserted after every
5 consecutive payload 1-bits, and the inserted bit does not count toward a run. The
argument `run` is the number of consecutive payload 1-bits just before `bits`. -/
def spec_stuff : List Bool → Nat → List Bool
  | [], _ => []
  | false :: rest, _ => false :: spec_stuff rest 0
  | true :: rest, run =>
    if run = 4 then true :: false :: spec_stuff rest 0 else true :: spec_stuff rest (run + 1)

/-- The number of fill bits after `n` bits: the least `k` with `n + k` a multiple of 8. -/
def spec_fill (n : Nat) : Nat := (8 - n % 8) % 8

/-- The wire format of the specification as a bit sequence: flag, stuffed payload bits,
flag, 1-fill to the byte boundary. -/
def spec_wire_bits (payload : List Nat) : List Bool :=
  flag_bits ++ spec_stuff (payload_bits_of payload) 0 ++ flag_bits ++
    List.replicate
      (spec_fill (flag_bits ++ spec_stuff (payload_bits_of payload) 0 ++ flag_bits).length) true

/-- The wire format of the specification as bytes, most significant bit first. -/
def spec_encode (payload : List Nat) : List Nat := pack_msb_first (spec_wire_bits payload)

/-- Whether a run of 1-bits reaches length 6 in `bits`, when `run` 1-bits come just
before them. -/
def six_run : List Bool → Nat → Bool
  | [], _ => false
  | true :: rest, run => decide (run + 1 > 5) || six_run rest (run + 1)
  | false :: rest, _ => six_run rest 0

/-- Whether the sliding window, started at `window`, stays different from `0x7E` after
each of the bits: no flag is recognised while they are read. -/
def no_flag_seen : List Bool → Nat → Bool
  | [], _ => true
  | bit :: rest, window =>
    decide (shift_window window bit ≠ FLAG) && no_flag_seen rest (shift_window window bit)

/-- The sliding window after the bits `bits`, started at `window`. -/
def window_after : List Bool → Nat → Nat
  | [], window => window
  | bit :: rest, window => window_after rest (shift_window window bit)

/-- The reader is at work on the stream `orig`: its unread bytes are a tail of `orig`,
and its position is one that `read_bit` leaves behind (-1 at the start, else 6 down
to -1). -/
def Reader.follows (orig : List Nat) (r : Reader) : Prop :=
  (∃ pre, orig = pre ++ r.stream) ∧ -1 ≤ r.bit_pos ∧ r.bit_pos ≤ 6

/-- The stuffing pass of `write_message` on a sequence of payload bits that need not fill
whole bytes: the body of its inner loop (lines 60-74), `write_message_bit`, run once per
bit in order. -/
def write_message_bits : List Bool → Writer → Nat → Option (Writer × Nat)
  | [], w, ones => some (w, ones)
  | bit :: rest, w, ones =>
    match write_message_bit bit w ones with
    | none => none
    | some (w1, ones1) => write_message_bits rest w1 ones1

/-! ## The reader and the bits it delivers -/

theorem low_bits_length (c n : Nat) : (low_bits c n).length = n := by
  induction n with
  | zero => rfl
  | succ n ih => simp [low_bits, ih]

theorem read_bit_none {r : Reader} (h : read_bit r = none) : r.bits = [] := by
  unfold read_bit read_bit_refill at h
  by_cases hneg : r.bit_pos < 0
  · rw [if_pos hneg] at h
    cases hs : r.stream with
    | nil =>
      have h0 : (r.bit_pos + 1).toNat = 0 := by omega
      simp [Reader.bits, hs, h0, low_bits, stream_bits]
    | cons c rest => simp [hs] at h
  · rw [if_neg hneg] at h
    simp at h

theorem read_bit_some {r r1 : Reader} {bit : Bool} (h : read_bit r = some (bit, r1)) :
    r.bits = bit :: r1.bits := by
  unfold read_bit read_bit_refill at h
  by_cases hneg : r.bit_pos < 0
  · rw [if_pos hneg] at h
    cases hs : r.stream with
    | nil => simp [hs] at h
    | cons c rest =>
      simp only [hs, Option.some.injEq, Prod.mk.injEq] at h
      obtain ⟨rfl, rfl⟩ := h
      have h0 : (r.bit_pos + 1).toNat = 0 := by omega
      simp [Reader.bits, hs, h0, low_bits, stream_bits]
  · rw [if_neg hneg] at h
    simp only [Option.some.injEq, Prod.mk.injEq] at h
    obtain ⟨rfl, rfl⟩ := h
    have h0 : (r.bit_pos + 1).toNat = r.bit_pos.toNat + 1 := by omega
    have h1 : (r.bit_pos - 1 + 1).toNat = r.bit_pos.toNat := by
      rw [Int.sub_add_cancel]
    simp [Reader.bits, h0, h1, low_bits]

theorem read_bit_of_bits_nil {r : Reader} (h : r.bits = []) : read_bit r = none := by
  cases hr : read_bit r with
  | none => rfl
  | some p =>
    obtain ⟨bit, r1⟩ := p
    rw [read_bit_some hr] at h
    simp at h

theorem read_bit_of_bits_cons {r : Reader} {bit : Bool} {rest : List Bool}
    (h : r.bits = bit :: rest) : ∃ r1, read_bit r = some (bit, r1) ∧ r1.bits = rest := by
  cases hr : read_bit r with
  | none =>
    rw [read_bit_none hr] at h
    simp at h
  | some p =>
    obtain ⟨bit1, r1⟩ := p
    rw [read_bit_some hr] at h
    simp only [List.cons.injEq] at h
    obtain ⟨rfl, rfl⟩ := h
    exact ⟨r1, rfl, rfl⟩

theorem find_start_flag_eof {r : Reader} (window : Nat) (h : read_bit r = none) :
    find_start_flag r window = none := by
  rw [find_start_flag]
  split
  · rfl
  · simp_all

theorem find_start_flag_step {r r1 : Reader} {bit : Bool} (window : Nat)
    (h : read_bit r = some (bit, r1)) :
    find_start_flag r window =
      if shift_window window bit = FLAG then some r1
      else find_start_flag r1 (shift_window window bit) := by
  rw [find_start_flag]
  split
  · simp_all
  · rename_i bit2 r2 h2
    rw [h] at h2
    simp only [Option.some.injEq, Prod.mk.injEq] at h2
    obtain ⟨rfl, rfl⟩ := h2
    rfl

/-- The first loop of `read_message` depends only on the bits to come. -/
theorem find_start_flag_bits_eq (r : Reader) (window : Nat) :
    (find_start_flag r window).map Reader.bits = find_start_flag_bits r.bits window := by
  generalize hl : r.bits = l
  induction l generalizing r window with
  | nil =>
    rw [find_start_flag_eof window (read_bit_of_bits_nil hl)]
    rfl
  | cons bit rest ih =>
    obtain ⟨r1, hr, hrest⟩ := read_bit_of_bits_cons hl
    rw [find_start_flag_step window hr, find_start_flag_bits]
    by_cases hw : shift_window window bit = FLAG
    · simp [hw, hrest]
    · simp only [hw, if_false]
      exact ih r1 _ hrest

theorem capture_frame_eof {r : Reader} (frame_bits : List Bool) (window : Nat)
    (h : read_bit r = none) :
    capture_frame r frame_bits window = .error (Diag.UnexpectedEOF, r) := by
  rw [capture_frame]
  split
  · rfl
  · simp_all

theorem capture_frame_step {r r1 : Reader} {bit : Bool} (frame_bits : List Bool)
    (window : Nat) (h : read_bit r = some (bit, r1)) :
    capture_frame r frame_bits window =
      if frame_bits.length = FRAME_BITS_MAX then .error (Diag.FrameTooLong, r1)
      else
        if shift_window window bit = FLAG then
          if (frame_bits ++ [bit]).length < 8 then .error (Diag.FrameError, r1)
          else .ok ((frame_bits ++ [bit]).take ((frame_bits ++ [bit]).length - 8), r1)
        else capture_frame r1 (frame_bits ++ [bit]) (shift_window window bit) := by
  rw [capture_frame]
  split
  · simp_all
  · rename_i bit2 r2 h2
    rw [h] at h2
    simp only [Option.some.injEq, Prod.mk.injEq] at h2
    obtain ⟨rfl, rfl⟩ := h2
    rfl

/-- The second loop of `read_message` depends only on the bits to come. -/
theorem capture_frame_bits_eq (r : Reader) (frame_bits : List Bool) (window : Nat) :
    capture_frame_bits r.bits frame_bits window =
      match capture_frame r frame_bits window with
      | .ok (fr, r2) => .ok (fr, r2.bits)
      | .error (d, _) => .error d := by
  generalize hl : r.bits = l
  induction l generalizing r frame_bits window with
  | nil =>
    rw [capture_frame_eof frame_bits window (read_bit_of_bits_nil hl)]
    rfl
  | cons bit rest ih =>
    obtain ⟨r1, hr, hrest⟩ := read_bit_of_bits_cons hl
    rw [capture_frame_step frame_bits window hr, capture_frame_bits]
    by_cases hf : frame_bits.length = FRAME_BITS_MAX
    · simp [hf]
    · simp only [hf, if_false]
      by_cases hw : shift_window window bit = FLAG
      · simp only [hw, if_true]
        by_cases h8 : (frame_bits ++ [bit]).length < 8
        · rw [if_pos h8, if_pos h8]
        · rw [if_neg h8, if_neg h8]
          simp only [hrest]
      · simp only [hw, if_false]
        exact ih r1 _ _ hrest

theorem initial_reader_bits (stream : List Nat) :
    Reader.bits { stream := stream, curr_byte := 0, bit_pos := -1 } = stream_bits stream := by
  simp [Reader.bits, low_bits]

/-- The value returned by `read_message`, its diagnostic and the buffer it leaves depend
only on the bits of the stream. -/
theorem read_message_bits_eq (stream out : List Nat) :
    ((read_message stream out).ret, (read_message stream out).diag,
      (read_message stream out).out) = read_message_bits (stream_bits stream) out := by
  have h1 := find_start_flag_bits_eq { stream := stream, curr_byte := 0, bit_pos := -1 } 0
  rw [initial_reader_bits] at h1
  unfold read_message read_message_bits
  rw [← h1]
  cases hf : find_start_flag { stream := stream, curr_byte := 0, bit_pos := -1 } 0 with
  | none => rfl
  | some r1 =>
    simp only [Option.map_some']
    have h2 := capture_frame_bits_eq r1 [] 0
    rw [h2]
    cases hc : capture_frame r1 [] 0 with
    | error e =>
      obtain ⟨d, r2⟩ := e
      rfl
    | ok p =>
      obtain ⟨fr, r2⟩ := p
      simp only
      cases hu : unstuff fr [] 0 with
      | error d => rfl
      | ok payload_bits =>
        simp only
        split_ifs <;> rfl

/-! ## The writer and the bits it is handed -/

theorem write_bits_append (a b : List Bool) (w : Writer) :
    write_bits (a ++ b) w = (write_bits a w).bind (write_bits b) := by
  induction a generalizing w with
  | nil => rfl
  | cons bit rest ih =>
    simp only [List.cons_append, write_bits]
    cases write_bit w bit with
    | none => rfl
    | some w1 => exact ih w1

theorem stuff_bits_append (a b : List Bool) (ones : Nat) :
    stuff_bits (a ++ b) ones = stuff_bits a ones ++ stuff_bits b (stuff_ones a ones) := by
  induction a generalizing ones with
  | nil => rfl
  | cons bit rest ih =>
    simp only [List.cons_append, stuff_bits, stuff_ones]
    split_ifs <;> simp [ih]

theorem stuff_ones_append (a b : List Bool) (ones : Nat) :
    stuff_ones (a ++ b) ones = stuff_ones b (stuff_ones a ones) := by
  induction a generalizing ones with
  | nil => rfl
  | cons bit rest ih =>
    simp only [List.cons_append, stuff_ones]
    split_ifs <;> simp [ih]

theorem write_flag_from_eq (n : Nat) (w : Writer) :
    write_flag_from n w = write_bits (low_bits FLAG n) w := by
  induction n generalizing w with
  | zero => rfl
  | succ n ih =>
    simp only [write_flag_from, low_bits, write_bits]
    cases write_bit w (((FLAG >>> n) &&& 1) != 0) with
    | none => rfl
    | some w1 => exact ih w1

/-- The function `write_flag` hands the 8 bits of `0x7E` to `write_bit`. -/
theorem write_flag_eq (w : Writer) : write_flag w = write_bits flag_bits w :=
  write_flag_from_eq 8 w

theorem write_message_bit_eq (bit : Bool) (w : Writer) (ones : Nat) :
    write_message_bit bit w ones =
      (write_bits (stuff_bits [bit] ones) w).map (fun w1 => (w1, stuff_ones [bit] ones)) := by
  unfold write_message_bit
  cases bit with
  | false =>
    simp only [stuff_bits, stuff_ones, write_bits]
    cases write_bit w false <;> simp
  | true =>
    by_cases h5 : ones + 1 = 5
    · simp only [stuff_bits, stuff_ones, write_bits, h5, if_true]
      cases write_bit w true with
      | none => rfl
      | some w1 =>
        simp only
        cases write_bit w1 false <;> simp
    · simp only [stuff_bits, stuff_ones, write_bits, h5, if_false, if_true]
      cases write_bit w true <;> simp

theorem write_message_byte_eq (b n : Nat) (w : Writer) (ones : Nat) :
    write_message_byte b n w ones =
      (write_bits (stuff_bits (low_bits b n) ones) w).map
        (fun w1 => (w1, stuff_ones (low_bits b n) ones)) := by
  induction n generalizing w ones with
  | zero => rfl
  | succ n ih =>
    have hcons : low_bits b (n + 1) = [((b >>> n) &&& 1) != 0] ++ low_bits b n := rfl
    rw [hcons, stuff_bits_append, stuff_ones_append, write_bits_append]
    simp only [write_message_byte]
    rw [write_message_bit_eq]
    cases write_bits (stuff_bits [((b >>> n) &&& 1) != 0] ones) w with
    | none => rfl
    | some w1 => exact ih w1 _

/-- The stuffing loop of `write_message` hands exactly the bits `stuff_bits` to
`write_bit`, in order, and ends with the run counter at `stuff_ones`. -/
theorem write_message_bytes_eq (buf : List Nat) (w : Writer) (ones : Nat) :
    write_message_bytes buf w ones =
      (write_bits (stuff_bits (payload_bits_of buf) ones) w).map
        (fun w1 => (w1, stuff_ones (payload_bits_of buf) ones)) := by
  induction buf generalizing w ones with
  | nil => rfl
  | cons b rest ih =>
    simp only [write_message_bytes, payload_bits_of, byte_bits]
    rw [stuff_bits_append, stuff_ones_append, write_bits_append, write_message_byte_eq]
    cases write_bits (stuff_bits (low_bits b 8) ones) w with
    | none => rfl
    | some w1 => exact ih w1 _

/-- The function `write_message` writes `frame_bits_of buf` bit by bit, then pads. -/
theorem write_message_eq (stream : OStream) (buf : List Nat) :
    write_message stream buf =
      match write_bits (frame_bits_of buf) { stream := stream, out_byte := 0, bit_pos := 7 } with
      | none => none
      | some w3 => (pad_ones_to_byte w3).map (fun w4 => (buf.length, w4.stream)) := by
  unfold write_message frame_bits_of
  rw [write_bits_append, write_bits_append, write_flag_eq]
  cases write_bits flag_bits { stream := stream, out_byte := 0, bit_pos := 7 } with
  | none => rfl
  | some w1 =>
    simp only [Option.some_bind]
    rw [write_message_bytes_eq]
    cases write_bits (stuff_bits (payload_bits_of buf) 0) w1 with
    | none => rfl
    | some w2 =>
      simp only [Option.map_some', Option.some_bind]
      rw [write_flag_eq]
      cases write_bits flag_bits w2 with
      | none => rfl
      | some w3 =>
        simp only
        cases pad_ones_to_byte w3 <;> rfl

/-! ## The padding loop -/

/-- After a successful `write_bit` the position is never negative: it is one less, or
back at 7 after a flush. -/
theorem write_bit_pos {w w1 : Writer} {bit : Bool} (hp : 0 ≤ w.bit_pos)
    (h : write_bit w bit = some w1) :
    w1.bit_pos = (if w.bit_pos = 0 then 7 else w.bit_pos - 1) := by
  unfold write_bit at h
  simp only at h
  by_cases hneg : w.bit_pos - 1 < 0
  · rw [if_pos hneg] at h
    cases hc : putc (if bit then w.out_byte ||| ((1 <<< w.bit_pos.toNat) % 256) else w.out_byte)
      w.stream with
    | none => simp [hc] at h
    | some s =>
      simp only [hc, Option.some.injEq] at h
      subst h
      have : w.bit_pos = 0 := by omega
      simp [this]
  · rw [if_neg hneg] at h
    simp only [Option.some.injEq] at h
    subst h
    have : w.bit_pos ≠ 0 := by omega
    simp [this]

theorem pad_ones_loop_step {w : Writer} (hp : 0 ≤ w.bit_pos) :
    pad_ones_loop w = (write_bit w true).bind pad_ones_loop := by
  rw [pad_ones_loop]
  simp only [hp, dite_true]
  split
  · rename_i h
    rw [h]
    rfl
  · rename_i w1 h
    rw [h]
    rfl

theorem pad_ones_loop_measure {w w1 : Writer} (hp : 0 ≤ w.bit_pos)
    (h : write_bit w true = some w1) :
    8 * w1.stream.room + w1.bit_pos.toNat < 8 * w.stream.room + w.bit_pos.toNat := by
  have hpos := write_bit_pos hp h
  unfold write_bit at h
  simp only at h
  by_cases hneg : w.bit_pos - 1 < 0
  · rw [if_pos hneg] at h
    unfold putc at h
    by_cases hroom : w.stream.room = 0
    · simp [hroom] at h
    · simp only [hroom, if_false, Option.some.injEq] at h
      subst h
      simp only
      omega
  · rw [if_neg hneg] at h
    simp only [Option.some.injEq] at h
    subst h
    simp only
    omega

/-- Once entered, the loop `while (*bit_pos >= 0)` of `pad_ones_to_byte` can only end
through a failing `putc`: `write_bit` never leaves the position negative. -/
theorem pad_ones_loop_fails (w : Writer) (hp : 0 ≤ w.bit_pos) : pad_ones_loop w = none := by
  generalize hm : 8 * w.stream.room + w.bit_pos.toNat = m
  induction m using Nat.strong_induction_on generalizing w with
  | _ m ih =>
    rw [pad_ones_loop_step hp]
    cases hw : write_bit w true with
    | none => rfl
    | some w1 =>
      simp only [Option.some_bind]
      have hpos := write_bit_pos hp hw
      have hlt := pad_ones_loop_measure hp hw
      have hp1 : 0 ≤ w1.bit_pos := by
        rw [hpos]
        split_ifs <;> omega
      exact ih _ (by omega) w1 hp1 rfl

/-- Where `write_bits` leaves the position: it moves down one step per bit, cyclically
through 7, 6, ..., 0. -/
theorem write_bits_pos (bits : List Bool) {w w1 : Writer} (hp : 0 ≤ w.bit_pos)
    (hq : w.bit_pos ≤ 7) (h : write_bits bits w = some w1) :
    0 ≤ w1.bit_pos ∧ w1.bit_pos ≤ 7 ∧
      (7 - w1.bit_pos) % 8 = (7 - w.bit_pos + bits.length) % 8 := by
  induction bits generalizing w with
  | nil =>
    simp only [write_bits, Option.some.injEq] at h
    subst h
    simp only [List.length_nil]
    omega
  | cons bit rest ih =>
    simp only [write_bits] at h
    cases hw : write_bit w bit with
    | none => simp [hw] at h
    | some w2 =>
      simp only [hw] at h
      have hpos := write_bit_pos hp hw
      have hp2 : 0 ≤ w2.bit_pos ∧ w2.bit_pos ≤ 7 := by
        rw [hpos]
        split_ifs <;> omega
      obtain ⟨h1, h2, h3⟩ := ih hp2.1 hp2.2 h
      refine ⟨h1, h2, ?_⟩
      simp only [List.length_cons]
      by_cases h0 : w.bit_pos = 0
      · simp only [h0, if_true] at hpos
        omega
      · simp only [h0, if_false] at hpos
        omega

theorem frame_bits_of_length (buf : List Nat) :
    (frame_bits_of buf).length = 16 + (stuff_bits (payload_bits_of buf) 0).length := by
  simp [frame_bits_of, flag_bits, byte_bits, low_bits_length]
  omega

/-- When the number of stuffed bits is not a multiple of 8 the end flag stops in mid-byte,
the padding loop is entered, and `write_message` cannot return a byte count: whatever
the room of the stream, it runs until a `putc` fails and returns -1. -/
theorem write_message_fails_of_partial_byte (stream : OStream) (buf : List Nat)
    (h : (stuff_bits (payload_bits_of buf) 0).length % 8 ≠ 0) :
    write_message stream buf = none := by
  rw [write_message_eq]
  cases hw : write_bits (frame_bits_of buf) { stream := stream, out_byte := 0, bit_pos := 7 } with
  | none => rfl
  | some w3 =>
    simp only
    obtain ⟨h1, h2, h3⟩ := write_bits_pos (frame_bits_of buf) (by simp) (by simp) hw
    rw [frame_bits_of_length] at h3
    simp only at h3
    have hne : w3.bit_pos ≠ 7 := by
      intro h7
      rw [h7] at h3
      omega
    simp [pad_ones_to_byte, hne, pad_ones_loop_fails w3 h1]

/-! ## Whole bytes -/

theorem bits_value_foldl (bits : List Bool) (a : Nat) :
    bits.foldl (fun acc bit => 2 * acc + bit.toNat) a = a * 2 ^ bits.length + bits_value bits := by
  induction bits generalizing a with
  | nil => simp [bits_value]
  | cons bit rest ih =>
    simp only [bits_value, List.foldl_cons, List.length_cons]
    rw [ih, ih (2 * 0 + bit.toNat)]
    ring

theorem bits_value_cons (bit : Bool) (rest : List Bool) :
    bits_value (bit :: rest) = bit.toNat * 2 ^ rest.length + bits_value rest := by
  simp only [bits_value, List.foldl_cons]
  rw [bits_value_foldl]
  simp [bits_value]

theorem bits_value_lt (bits : List Bool) : bits_value bits < 2 ^ bits.length := by
  induction bits with
  | nil => simp [bits_value]
  | cons bit rest ih =>
    rw [bits_value_cons, List.length_cons, pow_succ]
    cases bit <;> simp <;> omega

/-- Setting a bit above the filled part of the pending byte adds its weight. -/
theorem or_bit_eq_add (v p : Nat) (hp : p ≤ 7) :
    v * 2 ^ (p + 1) ||| ((1 <<< p) % 256) = v * 2 ^ (p + 1) + 2 ^ p := by
  have h1 : (1 <<< p) % 256 = 2 ^ p := by
    rw [Nat.shiftLeft_eq, one_mul]
    apply Nat.mod_eq_of_lt
    calc 2 ^ p ≤ 2 ^ 7 := Nat.pow_le_pow_right (by norm_num) hp
      _ < 256 := by norm_num
  rw [h1, Nat.mul_comm v]
  exact (Nat.mul_add_lt_is_or (Nat.pow_lt_pow_right (by norm_num) (Nat.lt_succ_self p)) v).symm

/-- One call of `write_bit` in arithmetic terms, with `v` the value of the bits pending
above position `p`. -/
theorem write_bit_arith (s : OStream) (v p : Nat) (bit : Bool) (hp : p ≤ 7) :
    write_bit { stream := s, out_byte := v * 2 ^ (p + 1), bit_pos := (p : Int) } bit =
      if p = 0 then
        (putc (v * 2 + bit.toNat) s).map (fun s1 => { stream := s1, out_byte := 0, bit_pos := 7 })
      else
        some { stream := s, out_byte := (2 * v + bit.toNat) * 2 ^ p,
               bit_pos := (p : Int) - 1 } := by
  have key : (if bit then v * 2 ^ (p + 1) ||| ((1 <<< (p : Int).toNat) % 256) else v * 2 ^ (p + 1))
      = v * 2 ^ (p + 1) + bit.toNat * 2 ^ p := by
    cases bit
    · simp
    · simp only [Int.toNat_ofNat, if_true, Bool.toNat_true, one_mul]
      exact or_bit_eq_add v p hp
  unfold write_bit
  simp only [key]
  by_cases h0 : p = 0
  · subst h0
    simp only [if_true, pow_zero, mul_one, zero_add, pow_one]
    have hneg : ((0 : Nat) : Int) - 1 < 0 := by omega
    rw [if_pos hneg]
    cases putc (v * 2 + bit.toNat) s <;> rfl
  · have hnn : ¬ ((p : Int) - 1 < 0) := by omega
    rw [if_neg hnn, if_neg h0]
    congr 2
    rw [pow_succ]
    ring

/-- Writing the `p + 1` bits that complete the pending byte flushes it: the byte is the
pending part plus the value of those bits, and the cursor is back at a byte boundary. -/
theorem write_bits_to_boundary (c : List Bool) (p v : Nat) (s : OStream)
    (hc : c.length = p + 1) (hp : p ≤ 7) :
    write_bits c { stream := s, out_byte := v * 2 ^ (p + 1), bit_pos := (p : Int) } =
      (putc (v * 2 ^ (p + 1) + bits_value c) s).map
        (fun s1 => { stream := s1, out_byte := 0, bit_pos := 7 }) := by
  induction p generalizing c v with
  | zero =>
    match c, hc with
    | [bit], _ =>
      simp only [write_bits]
      rw [write_bit_arith s v 0 bit (by norm_num)]
      simp only [if_true, zero_add, pow_one, bits_value, List.foldl_cons, List.foldl_nil,
        mul_zero]
      cases putc (v * 2 + bit.toNat) s <;> rfl
  | succ p ih =>
    match c, hc with
    | bit :: rest, hlen =>
      have hrest : rest.length = p + 1 := by simpa using hlen
      simp only [write_bits]
      rw [write_bit_arith s v (p + 1) bit hp]
      simp only [Nat.succ_ne_zero, if_false, Nat.cast_add, Nat.cast_one, add_sub_cancel_right]
      rw [ih rest (2 * v + bit.toNat) hrest (by omega), bits_value_cons, hrest]
      congr 2
      ring

/-- Eight calls of `write_bit` from a byte boundary flush one byte: the value of the
eight bits, most significant first. -/
theorem write_bits_byte (c : List Bool) (s : OStream) (hc : c.length = 8) :
    write_bits c { stream := s, out_byte := 0, bit_pos := 7 } =
      (putc (bits_value c) s).map (fun s1 => { stream := s1, out_byte := 0, bit_pos := 7 }) := by
  have h := write_bits_to_boundary c 7 0 s hc (le_refl 7)
  simpa using h

theorem pack_msb_first_chunk (c rest : List Bool) (hc : c.length = 8) :
    pack_msb_first (c ++ rest) = bits_value c :: pack_msb_first rest := by
  match c, hc with
  | [b7, b6, b5, b4, b3, b2, b1, b0], _ => rfl

theorem exists_chunk (bits : List Bool) (n : Nat) (h : bits.length = 8 * (n + 1)) :
    ∃ c rest, c.length = 8 ∧ rest.length = 8 * n ∧ bits = c ++ rest :=
  ⟨bits.take 8, bits.drop 8, by simp [h], by simp [h]; omega, by simp⟩

theorem write_bits_whole_bytes_aux (n : Nat) (bits : List Bool) (s : OStream)
    (hlen : bits.length = 8 * n) (hroom : n ≤ s.room) :
    write_bits bits { stream := s, out_byte := 0, bit_pos := 7 } =
      some { stream := { data := s.data ++ pack_msb_first bits, room := s.room - n },
             out_byte := 0, bit_pos := 7 } := by
  induction n generalizing bits s with
  | zero =>
    have : bits = [] := List.length_eq_zero.mp (by simpa using hlen)
    subst this
    simp [write_bits, pack_msb_first]
  | succ n ih =>
    obtain ⟨c, rest, hc, hrest, rfl⟩ := exists_chunk bits n hlen
    rw [write_bits_append, write_bits_byte c s hc, pack_msb_first_chunk c rest hc]
    have hne : ¬ s.room = 0 := by omega
    simp only [putc, hne, if_false, Option.map_some', Option.some_bind]
    rw [ih rest _ hrest (by simp only; omega)]
    simp only [List.append_assoc, List.singleton_append, Option.some.injEq, Writer.mk.injEq,
      OStream.mk.injEq, and_true, true_and]
    omega

/-- From a byte boundary, and with room for them, writing a whole number of bytes of
bits appends their packing to the stream and ends at a byte boundary. -/
theorem write_bits_whole_bytes (bits : List Bool) (s : OStream) (h8 : bits.length % 8 = 0)
    (hroom : bits.length / 8 ≤ s.room) :
    write_bits bits { stream := s, out_byte := 0, bit_pos := 7 } =
      some { stream := { data := s.data ++ pack_msb_first bits, room := s.room - bits.length / 8 },
             out_byte := 0, bit_pos := 7 } :=
  write_bits_whole_bytes_aux (bits.length / 8) bits s (by omega) hroom

/-- When the number of stuffed bits is a multiple of 8 and the stream has room, the end
flag stops at a byte boundary, no padding is written, and `write_message` returns the
payload length having appended the packing of flag, stuffed bits, flag. -/
theorem write_message_whole_bytes (stream : OStream) (buf : List Nat)
    (h8 : (stuff_bits (payload_bits_of buf) 0).length % 8 = 0)
    (hroom : 2 + (stuff_bits (payload_bits_of buf) 0).length / 8 ≤ stream.room) :
    write_message stream buf =
      some (buf.length,
        { data := stream.data ++ pack_msb_first (frame_bits_of buf),
          room := stream.room - (2 + (stuff_bits (payload_bits_of buf) 0).length / 8) }) := by
  have hlen := frame_bits_of_length buf
  rw [write_message_eq, write_bits_whole_bytes (frame_bits_of buf) stream (by omega) (by omega)]
  simp only [pad_ones_to_byte, ne_eq, not_true_eq_false, if_false, Option.map_some',
    Option.some.injEq, Prod.mk.injEq, OStream.mk.injEq, true_and]
  omega

/-! ## Unpacking what was packed -/

theorem low_bits_bits_value (c : List Bool) (hc : c.length = 8) :
    low_bits (bits_value c &&& 0xFF) 8 = c := by
  match c, hc with
  | [b7, b6, b5, b4, b3, b2, b1, b0], _ =>
    cases b7 <;> cases b6 <;> cases b5 <;> cases b4 <;> cases b3 <;> cases b2 <;> cases b1 <;>
      cases b0 <;> rfl

/-- Reading back, bit by bit, the packing of a whole number of bytes of bits gives the
bits. -/
theorem stream_bits_pack (n : Nat) (bits : List Bool) (hlen : bits.length = 8 * n) :
    stream_bits (pack_msb_first bits) = bits := by
  induction n generalizing bits with
  | zero =>
    have : bits = [] := List.length_eq_zero.mp (by simpa using hlen)
    subst this
    rfl
  | succ n ih =>
    obtain ⟨c, rest, hc, hrest, rfl⟩ := exists_chunk bits n hlen
    rw [pack_msb_first_chunk c rest hc]
    simp only [stream_bits]
    rw [low_bits_bits_value c hc, ih rest hrest]

theorem shift_window_eq (window : Nat) (bit : Bool) :
    shift_window window bit = (2 * window + bit.toNat) % 256 := by
  unfold shift_window
  have h1 : (window <<< 1) ||| bit.toNat = 2 * window + bit.toNat := by
    rw [Nat.shiftLeft_eq, pow_one, Nat.mul_comm]
    have := Nat.mul_add_lt_is_or (i := 1) (b := bit.toNat) (by cases bit <;> simp) window
    rw [pow_one] at this
    exact this.symm
  rw [h1]
  exact Nat.and_pow_two_sub_one_eq_mod _ 8

theorem flag_bits_eq : flag_bits = [false, true, true, true, true, true, true, false] := by
  rfl

theorem find_start_flag_bits_flag (rest : List Bool) :
    find_start_flag_bits (flag_bits ++ rest) 0 = some rest := by
  rfl

/-! ## Capturing a stuffed frame -/

theorem capture_frame_bits_next (bit : Bool) (rest frame_bits : List Bool) (window : Nat)
    (hlen : frame_bits.length < FRAME_BITS_MAX) (hw : shift_window window bit ≠ FLAG) :
    capture_frame_bits (bit :: rest) frame_bits window =
      capture_frame_bits rest (frame_bits ++ [bit]) (shift_window window bit) := by
  have hne : ¬ frame_bits.length = FRAME_BITS_MAX := by omega
  simp only [capture_frame_bits, hne, hw, if_false]

theorem window_tracks_zero {window ones : Nat} (h : window_tracks window ones) :
    shift_window window false ≠ FLAG ∧ window_tracks (shift_window window false) 0 := by
  obtain ⟨hlt, hk, hmod⟩ := h
  simp only [window_tracks, shift_window_eq, FLAG, Bool.toNat_false]
  interval_cases ones <;> simp at hmod ⊢ <;> omega

theorem window_tracks_one {window ones : Nat} (h : window_tracks window ones)
    (h5 : ones + 1 ≠ 5) :
    shift_window window true ≠ FLAG ∧ window_tracks (shift_window window true) (ones + 1) := by
  obtain ⟨hlt, hk, hmod⟩ := h
  simp only [window_tracks, shift_window_eq, FLAG, Bool.toNat_true]
  interval_cases ones <;> simp at hmod h5 ⊢ <;> omega

theorem window_tracks_stuffed {window ones : Nat} (h : window_tracks window ones)
    (h5 : ones + 1 = 5) :
    shift_window window true ≠ FLAG ∧
      shift_window (shift_window window true) false ≠ FLAG ∧
      window_tracks (shift_window (shift_window window true) false) 0 := by
  obtain ⟨hlt, hk, hmod⟩ := h
  have h4 : ones = 4 := by omega
  subst h4
  simp only [window_tracks, shift_window_eq, FLAG, Bool.toNat_true, Bool.toNat_false]
  simp at hmod ⊢
  omega

/-- The capture loop walks through the stuffed payload bits without seeing a flag, and
its window keeps agreeing with the run counter of the stuffing loop. -/
theorem capture_frame_bits_stuffed (bits : List Bool) (ones : Nat) (frame_bits : List Bool)
    (window : Nat) (tail : List Bool) (hw : window_tracks window ones)
    (hlen : frame_bits.length + (stuff_bits bits ones).length ≤ FRAME_BITS_MAX) :
    ∃ window1, window_tracks window1 (stuff_ones bits ones) ∧
      capture_frame_bits (stuff_bits bits ones ++ tail) frame_bits window =
        capture_frame_bits tail (frame_bits ++ stuff_bits bits ones) window1 := by
  induction bits generalizing ones frame_bits window with
  | nil => exact ⟨window, hw, by simp [stuff_bits]⟩
  | cons bit rest ih =>
    cases bit with
    | false =>
      simp only [stuff_bits, stuff_ones, Bool.false_eq_true, if_false, List.length_cons] at hlen ⊢
      obtain ⟨hne, hw1⟩ := window_tracks_zero hw
      obtain ⟨window1, hw2, heq⟩ := ih 0 (frame_bits ++ [false]) _ hw1
        (by simp only [List.length_append, List.length_singleton]; omega)
      refine ⟨window1, hw2, ?_⟩
      rw [List.cons_append, capture_frame_bits_next _ _ _ _ (by omega) hne, heq]
      simp
    | true =>
      by_cases h5 : ones + 1 = 5
      · simp only [stuff_bits, stuff_ones, h5, if_true, List.length_cons] at hlen ⊢
        obtain ⟨hne1, hne2, hw1⟩ := window_tracks_stuffed hw h5
        obtain ⟨window1, hw2, heq⟩ := ih 0 (frame_bits ++ [true] ++ [false]) _ hw1
          (by simp only [List.length_append, List.length_singleton]; omega)
        refine ⟨window1, hw2, ?_⟩
        rw [List.cons_append, List.cons_append,
          capture_frame_bits_next _ _ _ _ (by omega) hne1,
          capture_frame_bits_next _ _ _ _
            (by simp only [List.length_append, List.length_singleton]; omega) hne2, heq]
        simp
      · simp only [stuff_bits, stuff_ones, h5, if_true, if_false, List.length_cons] at hlen ⊢
        obtain ⟨hne, hw1⟩ := window_tracks_one hw h5
        obtain ⟨window1, hw2, heq⟩ := ih (ones + 1) (frame_bits ++ [true]) _ hw1
          (by simp only [List.length_append, List.length_singleton]; omega)
        refine ⟨window1, hw2, ?_⟩
        rw [List.cons_append, capture_frame_bits_next _ _ _ _ (by omega) hne, heq]
        simp

/-- After stuffed payload bits the capture loop recognises the end flag exactly at its
eighth bit and hands back the bits stored before it. -/
theorem capture_frame_bits_end_flag (frame_bits : List Bool) (window ones : Nat)
    (tail : List Bool) (hw : window_tracks window ones)
    (hlen : frame_bits.length + 8 ≤ FRAME_BITS_MAX) :
    capture_frame_bits (flag_bits ++ tail) frame_bits window = .ok (frame_bits, tail) := by
  obtain ⟨hlt, hk, hmod⟩ := hw
  have hm : window % 64 ≠ 63 := by
    interval_cases ones <;> simp at hmod <;> omega
  rw [flag_bits_eq]
  simp only [List.cons_append, List.nil_append]
  rw [capture_frame_bits_next _ _ _ _ (by omega)
    (by simp only [shift_window_eq, FLAG, Bool.toNat_false]; omega)]
  rw [capture_frame_bits_next _ _ _ _
    (by simp only [List.length_append, List.length_singleton]; omega)
    (by simp only [shift_window_eq, FLAG, Bool.toNat_false, Bool.toNat_true]; omega)]
  rw [capture_frame_bits_next _ _ _ _
    (by simp only [List.length_append, List.length_singleton]; omega)
    (by simp only [shift_window_eq, FLAG, Bool.toNat_false, Bool.toNat_true]; omega)]
  rw [capture_frame_bits_next _ _ _ _
    (by simp only [List.length_append, List.length_singleton]; omega)
    (by simp only [shift_window_eq, FLAG, Bool.toNat_false, Bool.toNat_true]; omega)]
  rw [capture_frame_bits_next _ _ _ _
    (by simp only [List.length_append, List.length_singleton]; omega)
    (by simp only [shift_window_eq, FLAG, Bool.toNat_false, Bool.toNat_true]; omega)]
  rw [capture_frame_bits_next _ _ _ _
    (by simp only [List.length_append, List.length_singleton]; omega)
    (by simp only [shift_window_eq, FLAG, Bool.toNat_false, Bool.toNat_true]; omega)]
  rw [capture_frame_bits_next _ _ _ _
    (by simp only [List.length_append, List.length_singleton]; omega)
    (by simp only [shift_window_eq, FLAG, Bool.toNat_false, Bool.toNat_true]; omega)]
  have hflag : shift_window (shift_window (shift_window (shift_window (shift_window
      (shift_window (shift_window (shift_window window false) true) true) true) true) true)
      true) false = FLAG := by
    simp only [shift_window_eq, FLAG, Bool.toNat_false, Bool.toNat_true]
    omega
  have hne : ¬ (frame_bits ++ [false] ++ [true] ++ [true] ++ [true] ++ [true] ++ [true] ++
      [true]).length = FRAME_BITS_MAX := by
    simp only [List.length_append, List.length_singleton]
    omega
  simp only [capture_frame_bits, hne, hflag, if_true, if_false]
  simp

/-! ## Destuffing a stuffed frame -/

theorem stuff_ones_le (bits : List Bool) (ones : Nat) (h : ones ≤ 4) :
    stuff_ones bits ones ≤ 4 := by
  induction bits generalizing ones with
  | nil => exact h
  | cons bit rest ih =>
    simp only [stuff_ones]
    split_ifs with hb h5
    · exact ih 0 (by omega)
    · exact ih (ones + 1) (by omega)
    · exact ih 0 (by omega)

/-- Stuffing adds at most one bit for every five payload bits. -/
theorem stuff_bits_length_le (bits : List Bool) (ones : Nat) (h : ones ≤ 4) :
    (stuff_bits bits ones).length ≤ bits.length + (bits.length + ones) / 5 := by
  induction bits generalizing ones with
  | nil => simp [stuff_bits]
  | cons bit rest ih =>
    simp only [stuff_bits]
    split_ifs with hb h5
    · have := ih 0 (by omega)
      simp only [List.length_cons]
      omega
    · have := ih (ones + 1) (by omega)
      simp only [List.length_cons]
      omega
    · have := ih 0 (by omega)
      simp only [List.length_cons]
      omega

theorem stuff_bits_length_ge (bits : List Bool) (ones : Nat) :
    bits.length ≤ (stuff_bits bits ones).length := by
  induction bits generalizing ones with
  | nil => simp [stuff_bits]
  | cons bit rest ih =>
    simp only [stuff_bits]
    split_ifs with hb h5
    · have := ih 0
      simp only [List.length_cons]
      omega
    · have := ih (ones + 1)
      simp only [List.length_cons]
      omega
    · have := ih 0
      simp only [List.length_cons]
      omega

theorem payload_bits_of_length (buf : List Nat) :
    (payload_bits_of buf).length = 8 * buf.length := by
  induction buf with
  | nil => rfl
  | cons b rest ih =>
    simp only [payload_bits_of, byte_bits, List.length_append, low_bits_length, ih,
      List.length_cons]
    omega

/-- The destuffing loop undoes the stuffing loop: it hands back the payload bits and
ends with the same run counter. -/
theorem unstuff_stuffed (bits : List Bool) (ones : Nat) (payload_bits tail : List Bool)
    (h : ones ≤ 4) (hlen : payload_bits.length + bits.length ≤ FRAME_BITS_MAX) :
    unstuff (stuff_bits bits ones ++ tail) payload_bits ones =
      unstuff tail (payload_bits ++ bits) (stuff_ones bits ones) := by
  induction bits generalizing ones payload_bits with
  | nil => simp [stuff_bits, stuff_ones]
  | cons bit rest ih =>
    simp only [List.length_cons] at hlen
    cases bit with
    | false =>
      have h5 : ¬ ones = 5 := by omega
      have hbig : ¬ (payload_bits ++ [false]).length > FRAME_BITS_MAX := by
        simp only [List.length_append, List.length_singleton]
        omega
      simp only [stuff_bits, stuff_ones, Bool.false_eq_true, if_false, List.cons_append,
        List.append_eq,
        unstuff, h5, hbig]
      rw [ih 0 _ (by omega) (by simp only [List.length_append, List.length_singleton]; omega)]
      simp
    | true =>
      have hbig : ¬ (payload_bits ++ [true]).length > FRAME_BITS_MAX := by
        simp only [List.length_append, List.length_singleton]
        omega
      have h6 : ¬ ones + 1 > 5 := by omega
      by_cases h5 : ones + 1 = 5
      · simp only [stuff_bits, stuff_ones, h5, if_true, List.cons_append, List.append_eq,
          unstuff, h6, hbig,
          if_false, Bool.false_eq_true]
        rw [ih 0 _ (by omega) (by simp only [List.length_append, List.length_singleton]; omega)]
        simp
      · simp only [stuff_bits, stuff_ones, h5, if_true, if_false, List.cons_append,
          List.append_eq, unstuff,
          h6, hbig]
        rw [ih (ones + 1) _ (by omega)
          (by simp only [List.length_append, List.length_singleton]; omega)]
        simp

/-! ## Packing the destuffed bits -/

theorem payload_bits_of_getD (buf : List Nat) (i j : Nat) (hi : i < buf.length) (hj : j < 8) :
    (payload_bits_of buf).getD (i * 8 + j) false = (byte_bits (buf.getD i 0)).getD j false := by
  induction buf generalizing i with
  | nil => simp at hi
  | cons b rest ih =>
    have hb : (byte_bits b).length = 8 := low_bits_length b 8
    cases i with
    | zero =>
      simp only [payload_bits_of, zero_mul, zero_add, List.getD_cons_zero]
      rw [List.getD_append _ _ _ _ (by omega)]
    | succ i =>
      simp only [payload_bits_of, List.getD_cons_succ]
      rw [List.getD_append_right _ _ _ _ (by omega), hb]
      have : (i + 1) * 8 + j - 8 = i * 8 + j := by omega
      rw [this]
      exact ih i (by simpa using hi)

set_option maxRecDepth 100000 in
theorem pack_byte_bits : ∀ b, b < 256 →
    (List.range 8).foldl
      (fun acc j => ((acc <<< 1) ||| ((byte_bits b).getD j false).toNat) % 256) 0 = b := by
  decide

theorem pack_byte_payload_bits_of (buf : List Nat) (i : Nat) (hi : i < buf.length)
    (hb : buf.getD i 0 < 256) : pack_byte (payload_bits_of buf) i = buf.getD i 0 := by
  have h8 : List.range 8 = [0, 1, 2, 3, 4, 5, 6, 7] := rfl
  have key := pack_byte_bits (buf.getD i 0) hb
  unfold pack_byte
  rw [h8] at key ⊢
  simp only [List.foldl_cons, List.foldl_nil] at key ⊢
  rw [payload_bits_of_getD buf i 0 hi (by norm_num), payload_bits_of_getD buf i 1 hi (by norm_num),
    payload_bits_of_getD buf i 2 hi (by norm_num), payload_bits_of_getD buf i 3 hi (by norm_num),
    payload_bits_of_getD buf i 4 hi (by norm_num), payload_bits_of_getD buf i 5 hi (by norm_num),
    payload_bits_of_getD buf i 6 hi (by norm_num), payload_bits_of_getD buf i 7 hi (by norm_num)]
  exact key

theorem pack_bytes_eq (payload_bits : List Bool) (n : Nat) (out : List Nat)
    (hn : n ≤ out.length) :
    pack_bytes payload_bits n out =
      (List.range n).map (pack_byte payload_bits) ++ out.drop n := by
  unfold pack_bytes
  induction n with
  | zero => simp
  | succ n ih =>
    rw [List.range_succ, List.foldl_append, ih (by omega)]
    simp only [List.foldl_cons, List.foldl_nil, List.map_append, List.map_cons, List.map_nil]
    rw [List.set_append]
    simp only [List.length_map, List.length_range, lt_self_iff_false, if_false, Nat.sub_self]
    rw [List.drop_eq_getElem_cons (by omega : n < out.length)]
    simp only [List.set_cons_zero, List.append_assoc, List.singleton_append]

theorem pack_bytes_payload_bits_of (buf out : List Nat) (hb : ∀ b ∈ buf, b < 256)
    (hout : buf.length ≤ out.length) :
    pack_bytes (payload_bits_of buf) buf.length out = buf ++ out.drop buf.length := by
  rw [pack_bytes_eq _ _ _ hout]
  congr 1
  apply List.ext_getElem
  · simp
  · intro i h1 h2
    simp only [List.getElem_map, List.getElem_range]
    have hi : i < buf.length := h2
    have hget : buf.getD i 0 = buf[i] := by
      rw [List.getD_eq_getElem _ _ hi]
    rw [pack_byte_payload_bits_of buf i hi (by rw [hget]; exact hb _ (List.getElem_mem _)), hget]

/-- The decoder on a well-formed frame: from the bits flag, stuffed payload bits, flag,
followed by anything, `read_message` returns the payload length and stores the payload
at the head of the buffer. -/
theorem read_message_bits_frame (buf out : List Nat) (tail : List Bool)
    (hlen : buf.length ≤ MAX_MESSAGE_LEN) (hb : ∀ b ∈ buf, b < 256)
    (hout : buf.length ≤ out.length) :
    read_message_bits (frame_bits_of buf ++ tail) out =
      (((buf.length : Nat) : Int), none, buf ++ out.drop buf.length) := by
  have hpl := payload_bits_of_length buf
  have hsl := stuff_bits_length_le (payload_bits_of buf) 0 (by norm_num)
  have hmax : MAX_MESSAGE_LEN = 256 := rfl
  have hfmax : FRAME_BITS_MAX = 2592 := rfl
  unfold read_message_bits frame_bits_of
  rw [List.append_assoc, List.append_assoc, find_start_flag_bits_flag]
  simp only
  obtain ⟨window1, hw1, hcap⟩ := capture_frame_bits_stuffed (payload_bits_of buf) 0 [] 0
    (flag_bits ++ tail) (by simp [window_tracks]) (by simp only [List.length_nil]; omega)
  rw [hcap, capture_frame_bits_end_flag _ _ _ _ hw1
    (by simp only [List.nil_append]; omega)]
  simp only [List.nil_append]
  have hun := unstuff_stuffed (payload_bits_of buf) 0 [] [] (by norm_num)
    (by simp only [List.length_nil]; omega)
  simp only [List.append_nil, List.nil_append, unstuff] at hun
  rw [hun]
  simp only [hpl]
  have h1 : ¬ (8 * buf.length % 8 ≠ 0) := by omega
  have h2 : ¬ (8 * buf.length / 8 > MAX_MESSAGE_LEN) := by omega
  have h3 : 8 * buf.length / 8 = buf.length := by omega
  have h4 : ¬ (buf.length > MAX_MESSAGE_LEN) := by omega
  simp only [h1, if_false, h3, h4]
  rw [pack_bytes_payload_bits_of buf out hb hout]

/-! ## The wire format of the specification -/

theorem spec_stuff_eq (bits : List Bool) (run : Nat) :
    spec_stuff bits run = stuff_bits bits run := by
  induction bits generalizing run with
  | nil => rfl
  | cons bit rest ih =>
    cases bit with
    | false => simp [spec_stuff, stuff_bits, ih]
    | true =>
      by_cases h : run = 4
      · simp [spec_stuff, stuff_bits, ih, h]
      · have h5 : ¬ run + 1 = 5 := by omega
        simp [spec_stuff, stuff_bits, ih, h, h5]

theorem spec_fill_spec (n : Nat) :
    spec_fill n < 8 ∧ (n + spec_fill n) % 8 = 0 ∧
      ∀ k, (n + k) % 8 = 0 → spec_fill n ≤ k := by
  unfold spec_fill
  refine ⟨by omega, by omega, ?_⟩
  intro k hk
  omega

theorem spec_wire_bits_eq (payload : List Nat) :
    spec_wire_bits payload =
      frame_bits_of payload ++ List.replicate (spec_fill (frame_bits_of payload).length) true := by
  simp only [spec_wire_bits, frame_bits_of, spec_stuff_eq]

theorem stream_bits_spec_encode (payload : List Nat) :
    stream_bits (spec_encode payload) = spec_wire_bits payload := by
  have h := (spec_fill_spec (frame_bits_of payload).length).2.1
  apply stream_bits_pack ((spec_wire_bits payload).length / 8)
  rw [spec_wire_bits_eq, List.length_append, List.length_replicate]
  omega

/-- The decoder on the wire format of the specification. -/
theorem read_message_spec_encode (payload out : List Nat)
    (hlen : payload.length ≤ MAX_MESSAGE_LEN) (hb : ∀ b ∈ payload, b < 256)
    (hout : payload.length ≤ out.length) :
    (read_message (spec_encode payload) out).ret = payload.length ∧
      (read_message (spec_encode payload) out).diag = none ∧
      (read_message (spec_encode payload) out).out = payload ++ out.drop payload.length := by
  have h := read_message_bits_eq (spec_encode payload) out
  rw [stream_bits_spec_encode, spec_wire_bits_eq,
    read_message_bits_frame payload out _ hlen hb hout] at h
  simp only [Prod.mk.injEq] at h
  exact h

/-! ## The encoder and the decoder against the wire format -/

/-- C1: the round trip fails for the one-byte payload 0xFF. Its 8 one-bits take one
stuffed bit, the end flag stops in mid-byte, and the padding loop of `write_message`
then runs until a `putc` fails: on every stream, whatever its room, the call returns
-1 and there is no written frame to read back. -/
theorem write_message_ff_fails (stream : OStream) : write_message stream [0xFF] = none :=
  write_message_fails_of_partial_byte stream [0xFF] (by decide)

/-- C2: `write_message` does not produce the wire format for a payload whose stuffed
bits do not fill whole bytes: it returns -1 on every stream instead of the payload
length. -/
theorem write_message_no_wire_format (stream : OStream) (buf : List Nat)
    (h : (stuff_bits (payload_bits_of buf) 0).length % 8 ≠ 0) :
    write_message stream buf = none :=
  write_message_fails_of_partial_byte stream buf h

theorem write_message_no_wire_format_witness :
    (stuff_bits (payload_bits_of [0x1F]) 0).length % 8 ≠ 0 ∧
      write_message { data := [], room := 1000 } [0x1F] = none :=
  ⟨by decide, write_message_no_wire_format { data := [], room := 1000 } [0x1F] (by decide)⟩

/-- C3: for every payload of at most 256 bytes, `read_message` applied to the bytes that
pack flag, stuffed payload bits (a 0 after every 5 consecutive payload 1-bits), flag and
1-fill returns the payload length, prints no diagnostic, and leaves the payload in the
first bytes of the buffer (the rest of the buffer is untouched). -/
theorem read_message_decodes_spec_frame (payload out : List Nat)
    (hlen : payload.length ≤ MAX_MESSAGE_LEN) (hb : ∀ b ∈ payload, b < 256)
    (hout : payload.length ≤ out.length) :
    (read_message (spec_encode payload) out).ret = payload.length ∧
      (read_message (spec_encode payload) out).diag = none ∧
      (read_message (spec_encode payload) out).out.take payload.length = payload ∧
      (read_message (spec_encode payload) out).out.drop payload.length =
        out.drop payload.length := by
  obtain ⟨h1, h2, h3⟩ := read_message_spec_encode payload out hlen hb hout
  refine ⟨h1, h2, ?_, ?_⟩
  · rw [h3]
    simp
  · rw [h3]
    simp

theorem read_message_decodes_spec_frame_witness :
    spec_encode [0xFF, 0x41] = [0x7E, 0xFB, 0xA0, 0xBF, 0x7F] ∧
      (read_message (spec_encode [0xFF, 0x41]) [1, 2, 3]).ret = 2 ∧
      (read_message (spec_encode [0xFF, 0x41]) [1, 2, 3]).diag = none ∧
      (read_message (spec_encode [0xFF, 0x41]) [1, 2, 3]).out.take 2 = [0xFF, 0x41] ∧
      (read_message (spec_encode [0xFF, 0x41]) [1, 2, 3]).out.drop 2 = [3] :=
  ⟨by decide, read_message_decodes_spec_frame [0xFF, 0x41] [1, 2, 3] (by decide) (by decide)
    (by decide)⟩

/-! ## Runs of ones -/

theorem six_run_of_six (rest : List Bool) (run : Nat) :
    six_run (List.replicate 6 true ++ rest) run = true := by
  simp [List.replicate, six_run]

theorem six_run_of_window (bits : List Bool) (run i : Nat)
    (h : (bits.drop i).take 6 = List.replicate 6 true) : six_run bits run = true := by
  induction i generalizing bits run with
  | zero =>
    have := List.take_append_drop 6 bits
    rw [List.drop_zero] at h
    rw [h] at this
    rw [← this]
    exact six_run_of_six _ _
  | succ i ih =>
    cases bits with
    | nil => simp [List.replicate] at h
    | cons bit rest =>
      rw [List.drop_succ_cons] at h
      cases bit with
      | false =>
        simp only [six_run]
        exact ih rest 0 h
      | true =>
        simp only [six_run, Bool.or_eq_true]
        exact Or.inr (ih rest (run + 1) h)

theorem window_of_six_run (bits : List Bool) (run : Nat) (h : six_run bits run = true) :
    ∃ i, ((List.replicate run true ++ bits).drop i).take 6 = List.replicate 6 true := by
  induction bits generalizing run with
  | nil => simp [six_run] at h
  | cons bit rest ih =>
    cases bit with
    | false =>
      simp only [six_run] at h
      obtain ⟨i, hi⟩ := ih 0 h
      refine ⟨run + 1 + i, ?_⟩
      simp only [List.replicate_zero, List.nil_append] at hi
      rw [← hi]
      congr 1
      rw [← List.drop_drop]
      congr 1
      rw [List.drop_append_eq_append_drop]
      simp
    | true =>
      simp only [six_run, Bool.or_eq_true, decide_eq_true_eq] at h
      have hsnoc : List.replicate run true ++ true :: rest =
          List.replicate (run + 1) true ++ rest := by
        rw [List.replicate_succ', List.append_assoc]
        rfl
      rw [hsnoc]
      rcases h with h | h
      · refine ⟨0, ?_⟩
        obtain ⟨k, hk⟩ : ∃ k, run + 1 = 6 + k := ⟨run + 1 - 6, by omega⟩
        rw [hk, List.drop_zero, List.replicate_add, List.append_assoc]
        simp [List.replicate]
      · exact ih (run + 1) h

/-- A run of six 1-bits somewhere in `bits` is what `six_run` detects. -/
theorem six_run_iff (bits : List Bool) :
    six_run bits 0 = true ↔ ∃ i, (bits.drop i).take 6 = List.replicate 6 true := by
  constructor
  · intro h
    simpa using window_of_six_run bits 0 h
  · rintro ⟨i, hi⟩
    exact six_run_of_window bits 0 i hi

/-- The stuffed bits never hold six 1-bits in a row. -/
theorem six_run_stuff_bits (bits : List Bool) (ones : Nat) (h : ones ≤ 4) :
    six_run (stuff_bits bits ones) ones = false := by
  induction bits generalizing ones with
  | nil => rfl
  | cons bit rest ih =>
    cases bit with
    | false =>
      simp only [stuff_bits, Bool.false_eq_true, if_false, six_run]
      exact ih 0 (by omega)
    | true =>
      by_cases h5 : ones + 1 = 5
      · simp only [stuff_bits, h5, if_true, six_run, Bool.or_eq_false_iff, decide_eq_false_iff_not]
        exact ⟨by omega, ih 0 (by omega)⟩
      · simp only [stuff_bits, h5, if_true, if_false, six_run, Bool.or_eq_false_iff,
          decide_eq_false_iff_not]
        exact ⟨by omega, ih (ones + 1) (by omega)⟩

theorem six_of_flag_window (bits : List Bool) (i : Nat)
    (h : (bits.drop i).take 8 = flag_bits) :
    (bits.drop (i + 1)).take 6 = List.replicate 6 true := by
  have h1 := List.take_append_drop 8 (bits.drop i)
  rw [h, flag_bits_eq] at h1
  have h2 : bits.drop (i + 1) = (bits.drop i).drop 1 := by
    rw [List.drop_drop, Nat.add_comm]
  rw [h2, ← h1]
  rfl

/-- C4: the bits that the stuffing loop of `write_message` hands to `write_bit` between
the two flags are `stuff_bits (payload_bits_of buf) 0`, and for every payload no 8
consecutive bits of them, at any bit offset, equal the flag 01111110. -/
theorem stuffed_bits_never_show_flag (buf : List Nat) (w : Writer) (i : Nat) :
    write_message_bytes buf w 0 =
        (write_bits (stuff_bits (payload_bits_of buf) 0) w).map
          (fun w1 => (w1, stuff_ones (payload_bits_of buf) 0)) ∧
      ((stuff_bits (payload_bits_of buf) 0).drop i).take 8 ≠ flag_bits := by
  refine ⟨write_message_bytes_eq buf w 0, ?_⟩
  intro h
  have h6 := six_run_of_window _ 0 _ (six_of_flag_window _ i h)
  rw [six_run_stuff_bits _ 0 (by norm_num)] at h6
  exact Bool.false_ne_true h6

/-! ## Payloads of zeros and of ones -/

theorem payload_bits_of_replicate_zero (n : Nat) :
    payload_bits_of (List.replicate n 0) = List.replicate (8 * n) false := by
  induction n with
  | zero => rfl
  | succ n ih =>
    have hb : byte_bits 0 = List.replicate 8 false := by decide
    rw [List.replicate_succ, payload_bits_of, ih, hb, ← List.replicate_add]
    congr 1
    omega

theorem stuff_bits_replicate_false (m ones : Nat) :
    stuff_bits (List.replicate m false) ones = List.replicate m false := by
  induction m generalizing ones with
  | zero => rfl
  | succ m ih => simp [List.replicate_succ, stuff_bits, ih]

/-- A payload of zero bytes is stuffed into itself. -/
theorem stuff_bits_zero_bytes (n : Nat) :
    stuff_bits (payload_bits_of (List.replicate n 0)) 0 = List.replicate (8 * n) false := by
  rw [payload_bits_of_replicate_zero, stuff_bits_replicate_false]

theorem payload_bits_of_replicate_ff (n : Nat) :
    payload_bits_of (List.replicate n 0xFF) = List.replicate (8 * n) true := by
  induction n with
  | zero => rfl
  | succ n ih =>
    have hb : byte_bits 0xFF = List.replicate 8 true := by decide
    rw [List.replicate_succ, payload_bits_of, ih, hb, ← List.replicate_add]
    congr 1
    omega

theorem stuff_bits_five_ones (rest : List Bool) :
    stuff_bits (List.replicate 5 true ++ rest) 0 =
      [true, true, true, true, true, false] ++ stuff_bits rest 0 := by
  simp [List.replicate, stuff_bits]

theorem stuff_bits_few_ones (r : Nat) (h : r < 5) :
    stuff_bits (List.replicate r true) 0 = List.replicate r true := by
  interval_cases r <;> rfl

theorem stuff_bits_ones (q r : Nat) (h : r < 5) :
    stuff_bits (List.replicate (5 * q + r) true) 0 =
      (List.replicate q [true, true, true, true, true, false]).flatten ++
        List.replicate r true := by
  induction q with
  | zero => simpa using stuff_bits_few_ones r h
  | succ q ih =>
    have hsplit : 5 * (q + 1) + r = 5 + (5 * q + r) := by ring
    rw [hsplit, List.replicate_add, stuff_bits_five_ones, ih, List.replicate_succ,
      List.flatten_cons, List.append_assoc]

theorem count_false_cadence (q r : Nat) :
    ((List.replicate q [true, true, true, true, true, false]).flatten ++
      List.replicate r true).count false = q := by
  induction q with
  | zero => simp [List.count_replicate]
  | succ q ih =>
    rw [List.replicate_succ, List.flatten_cons, List.append_assoc, List.count_append, ih]
    simp
    omega

/-- C7: for a payload of `n` bytes 0xFF the stuffing loop of `write_message` hands to
`write_bit` the `8 * n` payload 1-bits in groups of five, each group followed by one
0-bit, then the `8 * n % 5` remaining 1-bits: `8 * n / 5` stuffed 0-bits in all. For
0xFF 0xFF this is 1111101111101111101, with 3 stuffed 0-bits. -/
theorem stuffing_cadence_on_ones (n : Nat) (w : Writer) :
    write_message_bytes (List.replicate n 0xFF) w 0 =
        (write_bits (stuff_bits (payload_bits_of (List.replicate n 0xFF)) 0) w).map
          (fun w1 => (w1, stuff_ones (payload_bits_of (List.replicate n 0xFF)) 0)) ∧
      stuff_bits (payload_bits_of (List.replicate n 0xFF)) 0 =
        (List.replicate (8 * n / 5) [true, true, true, true, true, false]).flatten ++
          List.replicate (8 * n % 5) true ∧
      (stuff_bits (payload_bits_of (List.replicate n 0xFF)) 0).count false = 8 * n / 5 ∧
      stuff_bits (payload_bits_of [0xFF, 0xFF]) 0 =
        [true, true, true, true, true, false, true, true, true, true, true, false,
         true, true, true, true, true, false, true] := by
  have h : stuff_bits (payload_bits_of (List.replicate n 0xFF)) 0 =
      (List.replicate (8 * n / 5) [true, true, true, true, true, false]).flatten ++
        List.replicate (8 * n % 5) true := by
    rw [payload_bits_of_replicate_ff]
    have hdiv : 8 * n = 5 * (8 * n / 5) + 8 * n % 5 := (Nat.div_add_mod (8 * n) 5).symm
    conv_lhs => rw [hdiv]
    exact stuff_bits_ones _ _ (Nat.mod_lt _ (by norm_num))
  refine ⟨write_message_bytes_eq _ w 0, h, ?_, by decide⟩
  rw [h, count_false_cadence]

/-- C6: on a stream with room for two bytes, `write_message` with an empty payload
appends exactly the two bytes 0x7E 0x7E and returns 0; `read_message` on those two
bytes returns 0, prints no diagnostic and leaves the buffer as it was. -/
theorem empty_payload_round_trip (stream : OStream) (out : List Nat)
    (hroom : 2 ≤ stream.room) :
    write_message stream [] =
        some (0, { data := stream.data ++ [0x7E, 0x7E], room := stream.room - 2 }) ∧
      (read_message [0x7E, 0x7E] out).ret = 0 ∧
      (read_message [0x7E, 0x7E] out).diag = none ∧
      (read_message [0x7E, 0x7E] out).out = out := by
  constructor
  · have h := write_message_whole_bytes stream [] (by decide) (by simpa using hroom)
    rw [h]
    rfl
  · have h := read_message_bits_eq [0x7E, 0x7E] out
    have hb : stream_bits [0x7E, 0x7E] = frame_bits_of [] ++ [] := by decide
    rw [hb, read_message_bits_frame [] out [] (by decide) (by simp) (by simp)] at h
    simp only [Prod.mk.injEq] at h
    simpa using h

theorem empty_payload_round_trip_witness :
    write_message { data := [], room := 2 } [] =
        some (0, { data := [0x7E, 0x7E], room := 0 }) ∧
      (read_message [0x7E, 0x7E] [9, 9]).ret = 0 ∧
      (read_message [0x7E, 0x7E] [9, 9]).diag = none ∧
      (read_message [0x7E, 0x7E] [9, 9]).out = [9, 9] :=
  empty_payload_round_trip { data := [], room := 2 } [9, 9] (by decide)

/-- C5 fails as stated: `write_message` has no length check, and with room in the
stream a payload of 257 zero bytes is accepted and 257 is returned. -/
theorem write_message_accepts_257 :
    (write_message { data := [], room := 1000 } (List.replicate 257 0)).map Prod.fst =
      some 257 := by
  have h8 : (stuff_bits (payload_bits_of (List.replicate 257 0)) 0).length = 8 * 257 := by
    rw [stuff_bits_zero_bytes, List.length_replicate]
  rw [write_message_whole_bytes _ _ (by omega) (by simp only; omega)]
  simp only [Option.map_some', List.length_replicate]

/-- C5, amended: `write_message` does not compare `nbyte` with `MAX_MESSAGE_LEN`. A
payload of any length whose stuffed bits fill whole bytes is accepted when the stream
has room for the frame: the call returns `nbyte`, be it 256, 257 or more. -/
theorem write_message_has_no_length_check (stream : OStream) (buf : List Nat)
    (h8 : (stuff_bits (payload_bits_of buf) 0).length % 8 = 0)
    (hroom : 2 + (stuff_bits (payload_bits_of buf) 0).length / 8 ≤ stream.room) :
    (write_message stream buf).map Prod.fst = some buf.length := by
  rw [write_message_whole_bytes stream buf h8 hroom]
  rfl

theorem write_message_has_no_length_check_witness :
    (write_message { data := [], room := 300 } (List.replicate 256 0)).map Prod.fst =
      some 256 := by
  have h8 : (stuff_bits (payload_bits_of (List.replicate 256 0)) 0).length = 8 * 256 := by
    rw [stuff_bits_zero_bytes, List.length_replicate]
  have h := write_message_has_no_length_check { data := [], room := 300 }
    (List.replicate 256 0) (by omega) (by simp only; omega)
  simpa only [List.length_replicate] using h

/-! ## Failures of the reading loops -/

/-- C8 fails on the one-byte stream 0xFC (bits 11111100), which holds no 8-bit window
equal to 0x7E: the window starts at 0, so after the seventh bit it reads 01111110, the
first loop of `read_message` takes this for the start flag, and the call ends with the
diagnostic for an unexpected end of stream inside a frame instead of the one for a
missing start flag. -/
theorem read_message_fc_misses_sync_error (out : List Nat) :
    (∀ i, ((stream_bits [0xFC]).drop i).take 8 ≠ flag_bits) ∧
      (read_message [0xFC] out).ret = -1 ∧
      (read_message [0xFC] out).diag = some Diag.UnexpectedEOF ∧
      (read_message [0xFC] out).out = out := by
  constructor
  · intro i h
    have hb : stream_bits [0xFC] = [true, true, true, true, true, true, false, false] := by
      decide
    rw [hb, flag_bits_eq] at h
    cases i with
    | zero => simp at h
    | succ i =>
      have hl := congrArg List.length h
      simp only [List.length_take, List.length_drop, List.length_cons, List.length_nil] at hl
      omega
  · have h := read_message_bits_eq [0xFC] out
    have hr : read_message_bits (stream_bits [0xFC]) out =
        (-1, some Diag.UnexpectedEOF, out) := by rfl
    rw [hr] at h
    simp only [Prod.mk.injEq] at h
    exact h

/-- The capture loop when no flag shows up in the bits to come: it ends at the end of
the stream, unless the frame buffer fills up first. -/
theorem capture_frame_bits_no_flag (rest frame_bits : List Bool) (window : Nat)
    (hlen : frame_bits.length ≤ FRAME_BITS_MAX) (h : no_flag_seen rest window = true) :
    capture_frame_bits rest frame_bits window =
      if frame_bits.length + rest.length ≤ FRAME_BITS_MAX then .error Diag.UnexpectedEOF
      else .error Diag.FrameTooLong := by
  induction rest generalizing frame_bits window with
  | nil => simp [capture_frame_bits, hlen]
  | cons bit rest ih =>
    simp only [no_flag_seen, Bool.and_eq_true, decide_eq_true_eq] at h
    simp only [capture_frame_bits, List.length_cons]
    by_cases hfull : frame_bits.length = FRAME_BITS_MAX
    · have : ¬ (frame_bits.length + (rest.length + 1) ≤ FRAME_BITS_MAX) := by omega
      simp [hfull, this]
    · simp only [hfull, h.1, if_false]
      rw [ih (frame_bits ++ [bit]) _
        (by simp only [List.length_append, List.length_singleton]; omega) h.2]
      simp only [List.length_append, List.length_singleton]
      have : frame_bits.length + 1 + rest.length = frame_bits.length + (rest.length + 1) := by
        omega
      rw [this]

theorem stream_bits_replicate_zero (n : Nat) :
    stream_bits (List.replicate n 0) = List.replicate (8 * n) false := by
  induction n with
  | zero => rfl
  | succ n ih =>
    have hb : low_bits (0 &&& 0xFF) 8 = List.replicate 8 false := by decide
    rw [List.replicate_succ, stream_bits, ih, hb, ← List.replicate_add]
    congr 1
    omega

theorem no_flag_seen_replicate_false (m : Nat) :
    no_flag_seen (List.replicate m false) 0 = true := by
  induction m with
  | zero => rfl
  | succ m ih =>
    have h0 : shift_window 0 false = 0 := by decide
    simp only [List.replicate_succ, no_flag_seen, h0, ih, Bool.and_true, decide_eq_true_eq]
    decide

/-- What `read_message` does when the start flag is found and no flag is recognised in
the bits after it. -/
theorem read_message_no_end_flag (stream out : List Nat) (rest : List Bool)
    (hstart : find_start_flag_bits (stream_bits stream) 0 = some rest)
    (hnone : no_flag_seen rest 0 = true) :
    (read_message stream out).ret = -1 ∧
      (read_message stream out).diag =
        some (if rest.length ≤ FRAME_BITS_MAX then Diag.UnexpectedEOF else Diag.FrameTooLong) ∧
      (read_message stream out).out = out := by
  have h := read_message_bits_eq stream out
  unfold read_message_bits at h
  rw [hstart] at h
  simp only at h
  rw [capture_frame_bits_no_flag rest [] 0 (by simp) hnone] at h
  simp only [List.length_nil, zero_add] at h
  by_cases hle : rest.length ≤ FRAME_BITS_MAX
  · simp only [hle, if_true, Prod.mk.injEq] at h ⊢
    exact h
  · simp only [hle, if_false, Prod.mk.injEq] at h ⊢
    exact h

/-- C9 fails as stated: after a start flag, 325 zero bytes (2600 bits, none of them
completing a flag) end the stream, and `read_message` fails with the frame-too-long
diagnostic, not with the one for an unexpected end of stream. -/
theorem read_message_long_tail_frame_too_long :
    find_start_flag_bits (stream_bits (0x7E :: List.replicate 325 0)) 0 =
        some (List.replicate 2600 false) ∧
      no_flag_seen (List.replicate 2600 false) 0 = true ∧
      (read_message (0x7E :: List.replicate 325 0) []).diag = some Diag.FrameTooLong := by
  have hs : find_start_flag_bits (stream_bits (0x7E :: List.replicate 325 0)) 0 =
      some (List.replicate 2600 false) := by
    have hb : low_bits (0x7E &&& 0xFF) 8 = flag_bits := by decide
    rw [stream_bits, hb, find_start_flag_bits_flag, stream_bits_replicate_zero]
  refine ⟨hs, no_flag_seen_replicate_false 2600, ?_⟩
  have h := (read_message_no_end_flag _ [] _ hs (no_flag_seen_replicate_false 2600)).2.1
  rw [h, List.length_replicate, if_neg (by decide)]

/-- C9, amended: when a start flag is recognised, the stream then ends before any end
flag is recognised, and at most `FRAME_BITS_MAX` = 2592 bits follow the start flag,
`read_message` returns -1 with the diagnostic for an unexpected end of stream inside a
frame, and leaves the buffer as it was. -/
theorem read_message_eof_inside_frame (stream out : List Nat) (rest : List Bool)
    (hstart : find_start_flag_bits (stream_bits stream) 0 = some rest)
    (hnone : no_flag_seen rest 0 = true) (hlen : rest.length ≤ FRAME_BITS_MAX) :
    (read_message stream out).ret = -1 ∧
      (read_message stream out).diag = some Diag.UnexpectedEOF ∧
      (read_message stream out).out = out := by
  obtain ⟨h1, h2, h3⟩ := read_message_no_end_flag stream out rest hstart hnone
  rw [if_pos hlen] at h2
  exact ⟨h1, h2, h3⟩

theorem read_message_eof_inside_frame_witness :
    (read_message [0x7E, 0x41] [7, 7]).ret = -1 ∧
      (read_message [0x7E, 0x41] [7, 7]).diag = some Diag.UnexpectedEOF ∧
      (read_message [0x7E, 0x41] [7, 7]).out = [7, 7] :=
  read_message_eof_inside_frame [0x7E, 0x41] [7, 7]
    [false, true, false, false, false, false, false, true] (by decide) (by decide) (by decide)

/-! ## Destuffing failures -/

theorem capture_frame_bits_ok_length (rest frame_bits : List Bool) (window : Nat)
    (frame rest2 : List Bool) (hlen : frame_bits.length ≤ FRAME_BITS_MAX)
    (h : capture_frame_bits rest frame_bits window = .ok (frame, rest2)) :
    frame.length + 8 ≤ FRAME_BITS_MAX := by
  induction rest generalizing frame_bits window with
  | nil => simp [capture_frame_bits] at h
  | cons bit rest ih =>
    simp only [capture_frame_bits] at h
    by_cases hfull : frame_bits.length = FRAME_BITS_MAX
    · simp [hfull] at h
    · simp only [hfull, if_false] at h
      by_cases hw : shift_window window bit = FLAG
      · simp only [hw, if_true] at h
        simp only [List.length_append, List.length_singleton] at h
        by_cases h8 : frame_bits.length + 1 < 8
        · simp [h8] at h
        · simp only [h8, if_false, Except.ok.injEq, Prod.mk.injEq] at h
          obtain ⟨hf, -⟩ := h
          rw [← hf]
          simp only [List.length_take, List.length_append, List.length_singleton]
          omega
      · simp only [hw, if_false] at h
        exact ih (frame_bits ++ [bit]) _
          (by simp only [List.length_append, List.length_singleton]; omega) h

/-- The destuffing loop fails on a run of ones exactly when a run reaches six. -/
theorem unstuff_protocol_error_iff (frame payload_bits : List Bool) (ones : Nat)
    (hones : ones ≤ 5) (hlen : payload_bits.length + frame.length ≤ FRAME_BITS_MAX) :
    unstuff frame payload_bits ones = .error Diag.ProtocolError ↔
      six_run frame ones = true := by
  induction frame generalizing payload_bits ones with
  | nil => simp [unstuff, six_run]
  | cons bit rest ih =>
    simp only [List.length_cons] at hlen
    cases bit with
    | true =>
      by_cases h6 : ones + 1 > 5
      · simp [unstuff, six_run, h6]
      · have hbig : ¬ (payload_bits ++ [true]).length > FRAME_BITS_MAX := by
          simp only [List.length_append, List.length_singleton]
          omega
        simp only [unstuff, six_run, h6, hbig, if_true, if_false, decide_False, Bool.false_or]
        exact ih _ _ (by omega)
          (by simp only [List.length_append, List.length_singleton]; omega)
    | false =>
      by_cases h5 : ones = 5
      · simp only [unstuff, six_run, h5, if_true, Bool.false_eq_true, if_false]
        exact ih _ _ (by omega) (by omega)
      · have hbig : ¬ (payload_bits ++ [false]).length > FRAME_BITS_MAX := by
          simp only [List.length_append, List.length_singleton]
          omega
        simp only [unstuff, six_run, h5, hbig, if_false, Bool.false_eq_true]
        exact ih _ _ (by omega)
          (by simp only [List.length_append, List.length_singleton]; omega)

/-- C10: when `read_message` has captured the frame bits `frame` (the bits between the
recognised start flag and the recognised end flag), it fails with the diagnostic for an
invalid sequence of ones if and only if `frame` holds six consecutive 1-bits; and in
exactly that case it returns -1 with this diagnostic and leaves the buffer as it was. -/
theorem read_message_protocol_error_iff (stream out : List Nat) (rest frame rest2 : List Bool)
    (hstart : find_start_flag_bits (stream_bits stream) 0 = some rest)
    (hcap : capture_frame_bits rest [] 0 = .ok (frame, rest2)) :
    ((read_message stream out).diag = some Diag.ProtocolError ↔
        ∃ i, (frame.drop i).take 6 = List.replicate 6 true) ∧
      (((read_message stream out).ret = -1 ∧
          (read_message stream out).diag = some Diag.ProtocolError ∧
          (read_message stream out).out = out) ↔
        ∃ i, (frame.drop i).take 6 = List.replicate 6 true) := by
  have hfl := capture_frame_bits_ok_length rest [] 0 frame rest2 (by simp) hcap
  have hiff := unstuff_protocol_error_iff frame [] 0 (by norm_num)
    (by simp only [List.length_nil]; omega)
  rw [six_run_iff] at hiff
  have h := read_message_bits_eq stream out
  unfold read_message_bits at h
  rw [hstart] at h
  simp only [hcap] at h
  cases hu : unstuff frame [] 0 with
  | error d =>
    simp only [hu, Prod.mk.injEq] at h
    obtain ⟨h1, h2, h3⟩ := h
    rw [hu] at hiff
    simp only [Except.error.injEq] at hiff
    rw [h1, h2, h3, ← hiff]
    simp
  | ok payload_bits =>
    rw [hu] at hiff h
    simp only [reduceCtorEq, false_iff] at hiff
    have hd : (read_message stream out).diag ≠ some Diag.ProtocolError := by
      simp only at h
      split_ifs at h <;> simp only [Prod.mk.injEq] at h <;> rw [h.2.1] <;> simp
    constructor
    · exact ⟨fun hx => absurd hx hd, fun hx => absurd hx hiff⟩
    · exact ⟨fun hx => absurd hx.2.1 hd, fun hx => absurd hx hiff⟩

theorem read_message_protocol_error_iff_witness :
    (read_message [0x7E, 0xFF, 0x7E] [5, 5]).ret = -1 ∧
      (read_message [0x7E, 0xFF, 0x7E] [5, 5]).diag = some Diag.ProtocolError ∧
      (read_message [0x7E, 0xFF, 0x7E] [5, 5]).out = [5, 5] :=
  (read_message_protocol_error_iff [0x7E, 0xFF, 0x7E] [5, 5]
    [true, true, true, true, true, true, true, true,
     false, true, true, true, true, true, true, false]
    [true, true, true, true, true, true, true, true] [] (by decide) (by rfl)).2.mpr
    ⟨0, by decide⟩

/-! ## Round trip for payloads whose stuffed bits fill whole bytes -/

/-- When the stuffed bits of a payload of at most 256 bytes fill whole bytes, what
`write_message` writes to an empty stream with room is read back by `read_message` as
the payload. -/
theorem round_trip_whole_bytes (room : Nat) (buf out : List Nat)
    (h8 : (stuff_bits (payload_bits_of buf) 0).length % 8 = 0)
    (hroom : 2 + (stuff_bits (payload_bits_of buf) 0).length / 8 ≤ room)
    (hlen : buf.length ≤ MAX_MESSAGE_LEN) (hb : ∀ b ∈ buf, b < 256)
    (hout : buf.length ≤ out.length) :
    ∃ s, write_message { data := [], room := room } buf = some (buf.length, s) ∧
      (read_message s.data out).ret = buf.length ∧
      (read_message s.data out).diag = none ∧
      (read_message s.data out).out = buf ++ out.drop buf.length := by
  refine ⟨_, write_message_whole_bytes { data := [], room := room } buf h8 hroom, ?_⟩
  simp only [List.nil_append]
  have hfl := frame_bits_of_length buf
  have h := read_message_bits_eq (pack_msb_first (frame_bits_of buf)) out
  rw [stream_bits_pack ((frame_bits_of buf).length / 8) _ (by omega)] at h
  have hf := read_message_bits_frame buf out [] hlen hb hout
  rw [List.append_nil] at hf
  rw [hf] at h
  simp only [Prod.mk.injEq] at h
  exact h

/-! ## What a call of `read_message` returns -/

theorem read_message_ret_eq (stream out : List Nat) :
    (read_message stream out).ret = (read_message_bits (stream_bits stream) out).1 := by
  rw [← read_message_bits_eq]

theorem read_message_diag_eq (stream out : List Nat) :
    (read_message stream out).diag = (read_message_bits (stream_bits stream) out).2.1 := by
  rw [← read_message_bits_eq]

theorem read_message_out_eq (stream out : List Nat) :
    (read_message stream out).out = (read_message_bits (stream_bits stream) out).2.2 := by
  rw [← read_message_bits_eq]

/-- The outcome of `read_message` once the first two loops have captured `frame` and the
destuffing loop has handed back `payload_bits`. -/
theorem read_message_bits_of_unstuffed (bits : List Bool) (out : List Nat)
    (rest frame rest2 payload_bits : List Bool)
    (hstart : find_start_flag_bits bits 0 = some rest)
    (hcap : capture_frame_bits rest [] 0 = .ok (frame, rest2))
    (hun : unstuff frame [] 0 = .ok payload_bits) :
    read_message_bits bits out =
      if payload_bits.length % 8 ≠ 0 then ((-1 : Int), some Diag.AlignmentError, out)
      else if payload_bits.length / 8 > MAX_MESSAGE_LEN then
        ((-1 : Int), some Diag.OversizeError, out)
      else (((payload_bits.length / 8 : Nat) : Int), none,
        pack_bytes payload_bits (payload_bits.length / 8) out) := by
  unfold read_message_bits
  rw [hstart]
  simp only [hcap, hun]

/-- C11: when the first two loops of `read_message` have captured a frame, the
destuffing loop accepts it (no six consecutive 1-bits), and the number of destuffed bits
is not a multiple of 8, then `read_message` returns -1 with the diagnostic for a payload
that is not a whole number of bytes and leaves the buffer as it was: no truncated or
zero-padded byte is stored. -/
theorem read_message_alignment_error (stream out : List Nat)
    (rest frame rest2 payload_bits : List Bool)
    (hstart : find_start_flag_bits (stream_bits stream) 0 = some rest)
    (hcap : capture_frame_bits rest [] 0 = .ok (frame, rest2))
    (hun : unstuff frame [] 0 = .ok payload_bits)
    (h8 : payload_bits.length % 8 ≠ 0) :
    (read_message stream out).ret = -1 ∧
      (read_message stream out).diag = some Diag.AlignmentError ∧
      (read_message stream out).out = out := by
  have h := read_message_bits_of_unstuffed _ out rest frame rest2 payload_bits hstart hcap hun
  rw [if_pos h8] at h
  rw [read_message_ret_eq, read_message_diag_eq, read_message_out_eq, h]
  exact ⟨rfl, rfl, rfl⟩

theorem read_message_alignment_error_witness :
    (read_message [0x7E, 0xAA, 0x3F, 0x3F] [4, 4]).ret = -1 ∧
      (read_message [0x7E, 0xAA, 0x3F, 0x3F] [4, 4]).diag = some Diag.AlignmentError ∧
      (read_message [0x7E, 0xAA, 0x3F, 0x3F] [4, 4]).out = [4, 4] :=
  read_message_alignment_error [0x7E, 0xAA, 0x3F, 0x3F] [4, 4]
    (stream_bits [0xAA, 0x3F, 0x3F])
    [true, false, true, false, true, false, true, false, false]
    [false, true, true, true, true, true, true]
    [true, false, true, false, true, false, true, false, false]
    (by decide) (by rfl) (by rfl) (by decide)

theorem pack_bytes_length (payload_bits : List Bool) (n : Nat) (out : List Nat) :
    (pack_bytes payload_bits n out).length = out.length := by
  unfold pack_bytes
  induction n with
  | zero => simp
  | succ n ih =>
    rw [List.range_succ, List.foldl_append]
    simp only [List.foldl_cons, List.foldl_nil, List.length_set, ih]

/-- The last loop of `read_message` stores nothing at or beyond position `out_bytes`. -/
theorem pack_bytes_drop (payload_bits : List Bool) (n : Nat) (out : List Nat) :
    (pack_bytes payload_bits n out).drop n = out.drop n := by
  unfold pack_bytes
  induction n with
  | zero => simp
  | succ n ih =>
    rw [List.range_succ, List.foldl_append]
    simp only [List.foldl_cons, List.foldl_nil]
    rw [List.drop_set_of_lt _ _ (Nat.lt_succ_self n), ← List.drop_drop 1 n, ih,
      List.drop_drop]

/-- Every call of `read_message` either fails, returning -1 with a diagnostic and the
buffer as it was, or returns a count of at most `MAX_MESSAGE_LEN` without a diagnostic,
having stored that many bytes. -/
theorem read_message_bits_cases (bits : List Bool) (out : List Nat) :
    (∃ d, read_message_bits bits out = ((-1 : Int), some d, out)) ∨
      ∃ n payload_bits, n ≤ MAX_MESSAGE_LEN ∧
        read_message_bits bits out = ((n : Int), none, pack_bytes payload_bits n out) := by
  unfold read_message_bits
  cases find_start_flag_bits bits 0 with
  | none => exact Or.inl ⟨_, rfl⟩
  | some rest =>
    simp only
    cases capture_frame_bits rest [] 0 with
    | error d => exact Or.inl ⟨_, rfl⟩
    | ok p =>
      obtain ⟨frame, rest2⟩ := p
      simp only
      cases unstuff frame [] 0 with
      | error d => exact Or.inl ⟨_, rfl⟩
      | ok payload_bits =>
        simp only
        by_cases h8 : payload_bits.length % 8 ≠ 0
        · rw [if_pos h8]
          exact Or.inl ⟨_, rfl⟩
        · rw [if_neg h8]
          by_cases hbig : payload_bits.length / 8 > MAX_MESSAGE_LEN
          · rw [if_pos hbig]
            exact Or.inl ⟨_, rfl⟩
          · rw [if_neg hbig]
            exact Or.inr ⟨_, payload_bits, by omega, rfl⟩

/-- C13: whatever the stream and whatever the buffer holds, when `read_message` returns
-1 the buffer is as it was before the call. -/
theorem read_message_failure_keeps_buffer (stream out : List Nat)
    (h : (read_message stream out).ret = -1) : (read_message stream out).out = out := by
  rw [read_message_ret_eq] at h
  rw [read_message_out_eq]
  rcases read_message_bits_cases (stream_bits stream) out with ⟨d, hd⟩ | ⟨n, pb, hn, hd⟩
  · rw [hd]
  · rw [hd] at h
    simp only at h
    omega

theorem read_message_failure_keeps_buffer_witness :
    (read_message [0x7E, 0xFF, 0xFF, 0x7E] [1, 2, 3]).ret = -1 ∧
      (read_message [0x7E, 0xFF, 0xFF, 0x7E] [1, 2, 3]).out = [1, 2, 3] :=
  have h : (read_message [0x7E, 0xFF, 0xFF, 0x7E] [1, 2, 3]).ret = -1 := by
    rw [read_message_ret_eq]
    decide
  ⟨h, read_message_failure_keeps_buffer [0x7E, 0xFF, 0xFF, 0x7E] [1, 2, 3] h⟩

/-! ## Frames of any stuffed bits -/

theorem stream_bits_append (a b : List Nat) :
    stream_bits (a ++ b) = stream_bits a ++ stream_bits b := by
  induction a with
  | nil => rfl
  | cons c rest ih => simp [stream_bits, ih]

theorem stream_bits_length (a : List Nat) : (stream_bits a).length = 8 * a.length := by
  induction a with
  | nil => rfl
  | cons c rest ih =>
    simp only [stream_bits, List.length_append, low_bits_length, ih, List.length_cons]
    omega

/-- After the start flag, the capture loop hands back any stuffed bit sequence that is
followed by the end flag and fits the frame buffer. -/
theorem capture_frame_bits_frame (bits tail : List Bool)
    (hlen : (stuff_bits bits 0).length + 8 ≤ FRAME_BITS_MAX) :
    capture_frame_bits (stuff_bits bits 0 ++ flag_bits ++ tail) [] 0 =
      .ok (stuff_bits bits 0, tail) := by
  obtain ⟨window1, hw1, hcap⟩ := capture_frame_bits_stuffed bits 0 [] 0
    (flag_bits ++ tail) (by simp [window_tracks]) (by simp only [List.length_nil]; omega)
  rw [List.append_assoc, hcap, capture_frame_bits_end_flag _ _ _ _ hw1
    (by simp only [List.nil_append]; omega)]
  simp

/-- The destuffing loop hands back any bit sequence of at most `FRAME_BITS_MAX` bits from
its stuffed form. -/
theorem unstuff_stuff_bits (bits : List Bool) (hlen : bits.length ≤ FRAME_BITS_MAX) :
    unstuff (stuff_bits bits 0) [] 0 = .ok bits := by
  have h := unstuff_stuffed bits 0 [] [] (by norm_num) (by simpa using hlen)
  simpa [unstuff] using h

/-- C12: whatever the stream, the value returned by `read_message` is at most
`MAX_MESSAGE_LEN` = 256, the buffer keeps its length, and nothing at or beyond the
position given by the returned count is changed (on a failure nothing is changed at
all). And when the destuffed bits of the captured frame are a multiple of 8 in number
and more than 2048, `read_message` returns -1 with the diagnostic for a payload that
exceeds `MAX_MESSAGE_LEN`, leaving the buffer as it was. -/
theorem read_message_size_bound (stream out : List Nat) :
    (read_message stream out).ret ≤ MAX_MESSAGE_LEN ∧
      (read_message stream out).out.length = out.length ∧
      (read_message stream out).out.drop (read_message stream out).ret.toNat =
        out.drop (read_message stream out).ret.toNat ∧
      ∀ rest frame rest2 payload_bits,
        find_start_flag_bits (stream_bits stream) 0 = some rest →
        capture_frame_bits rest [] 0 = .ok (frame, rest2) →
        unstuff frame [] 0 = .ok payload_bits →
        payload_bits.length % 8 = 0 → 2048 < payload_bits.length →
        (read_message stream out).ret = -1 ∧
          (read_message stream out).diag = some Diag.OversizeError ∧
          (read_message stream out).out = out := by
  rw [read_message_ret_eq, read_message_diag_eq, read_message_out_eq]
  refine ⟨?_, ?_, ?_, ?_⟩
  · rcases read_message_bits_cases (stream_bits stream) out with ⟨d, hd⟩ | ⟨n, pb, hn, hd⟩
    · rw [hd]
      have := Int.ofNat_nonneg MAX_MESSAGE_LEN
      simp only
      omega
    · rw [hd]
      simp only
      exact_mod_cast hn
  · rcases read_message_bits_cases (stream_bits stream) out with ⟨d, hd⟩ | ⟨n, pb, hn, hd⟩
    · rw [hd]
    · rw [hd]
      exact pack_bytes_length pb n out
  · rcases read_message_bits_cases (stream_bits stream) out with ⟨d, hd⟩ | ⟨n, pb, hn, hd⟩
    · rw [hd]
    · rw [hd]
      simp only [Int.toNat_ofNat]
      exact pack_bytes_drop pb n out
  · intro rest frame rest2 payload_bits hstart hcap hun h8 hbig
    have h := read_message_bits_of_unstuffed _ out rest frame rest2 payload_bits hstart hcap hun
    have hmax : MAX_MESSAGE_LEN = 256 := rfl
    rw [if_neg (by omega), if_pos (by omega)] at h
    rw [h]
    exact ⟨rfl, rfl, rfl⟩

theorem read_message_size_bound_witness :
    (read_message (0x7E :: (List.replicate 257 0 ++ [0x7E])) [8, 8]).ret = -1 ∧
      (read_message (0x7E :: (List.replicate 257 0 ++ [0x7E])) [8, 8]).diag =
        some Diag.OversizeError ∧
      (read_message (0x7E :: (List.replicate 257 0 ++ [0x7E])) [8, 8]).out = [8, 8] := by
  have hb : low_bits (0x7E &&& 0xFF) 8 = flag_bits := by decide
  have hf : stream_bits [0x7E] = flag_bits := by decide
  have hbits : stream_bits (0x7E :: (List.replicate 257 0 ++ [0x7E])) =
      flag_bits ++ (stuff_bits (List.replicate (8 * 257) false) 0 ++ flag_bits ++ []) := by
    rw [stream_bits, stream_bits_append, stream_bits_replicate_zero, stuff_bits_replicate_false,
      hb, hf, List.append_nil]
  have hlen : (stuff_bits (List.replicate (8 * 257) false) 0).length = 8 * 257 := by
    rw [stuff_bits_replicate_false, List.length_replicate]
  exact (read_message_size_bound (0x7E :: (List.replicate 257 0 ++ [0x7E])) [8, 8]).2.2.2
    (stuff_bits (List.replicate (8 * 257) false) 0 ++ flag_bits ++ [])
    (stuff_bits (List.replicate (8 * 257) false) 0) [] (List.replicate (8 * 257) false)
    (by rw [hbits, find_start_flag_bits_flag])
    (capture_frame_bits_frame _ _ (by rw [hlen]; decide))
    (unstuff_stuff_bits _ (by rw [List.length_replicate]; decide))
    (by rw [List.length_replicate])
    (by rw [List.length_replicate]; decide)

/-! ## Padding, destuffing and capacity -/

/-- At a byte boundary `pad_ones_to_byte` writes nothing. -/
theorem pad_ones_to_byte_at_boundary (w : Writer) (h : w.bit_pos = 7) :
    pad_ones_to_byte w = some w := by
  simp [pad_ones_to_byte, h]

/-- C16 fails in mid-byte: for every cursor position 0..6 and every stream, whatever
its room, `pad_ones_to_byte` does not stop at the byte boundary. After the flush
`write_bit` puts the position back at 7, the test `*bit_pos >= 0` holds again, and the
loop goes on writing 1-bits until a `putc` fails; the call returns -1. -/
theorem pad_ones_to_byte_never_returns (w : Writer) (h0 : 0 ≤ w.bit_pos)
    (h6 : w.bit_pos ≤ 6) : pad_ones_to_byte w = none := by
  have hne : w.bit_pos ≠ 7 := by omega
  simp [pad_ones_to_byte, hne, pad_ones_loop_fails w h0]

theorem pad_ones_to_byte_never_returns_witness :
    write_bits (frame_bits_of [0xFF])
        { stream := { data := [], room := 1000 }, out_byte := 0, bit_pos := 7 } =
        some { stream := { data := [0x7E, 0xFB, 0xBF], room := 997 }, out_byte := 0,
               bit_pos := 6 } ∧
      pad_ones_to_byte { stream := { data := [0x7E, 0xFB, 0xBF], room := 997 }, out_byte := 0,
                         bit_pos := 6 } = none :=
  ⟨by decide, pad_ones_to_byte_never_returns _ (by decide) (by decide)⟩

/-- The diagnostic of `read_message` on a frame of at most 256 bytes: none. -/
theorem read_message_bits_frame_diag (buf out : List Nat) (tail : List Bool)
    (hlen : buf.length ≤ MAX_MESSAGE_LEN) :
    (read_message_bits (frame_bits_of buf ++ tail) out).2.1 = none := by
  have hpl := payload_bits_of_length buf
  have hsl := stuff_bits_length_le (payload_bits_of buf) 0 (by norm_num)
  have hmax : MAX_MESSAGE_LEN = 256 := rfl
  have hfmax : FRAME_BITS_MAX = 2592 := rfl
  have hstart : find_start_flag_bits (frame_bits_of buf ++ tail) 0 =
      some (stuff_bits (payload_bits_of buf) 0 ++ flag_bits ++ tail) := by
    unfold frame_bits_of
    rw [List.append_assoc, List.append_assoc, find_start_flag_bits_flag, List.append_assoc]
  rw [read_message_bits_of_unstuffed _ out _ _ _ _ hstart
    (capture_frame_bits_frame _ _ (by omega)) (unstuff_stuff_bits _ (by omega))]
  rw [if_neg (by omega), if_neg (by omega)]

/-- C18: stuffing adds at most one bit for every five bits, so the stuffed sequence is
at most 5/4 of the payload bits; hence for a payload of at most 256 bytes the stuffed
bits and the 8 bits of the end flag are at most `FRAME_BITS_MAX` = 256 * 10 + 32 = 2592,
and `read_message` does not fail with the frame-too-long diagnostic on the frame of such
a payload. -/
theorem frame_buffer_suffices (buf out : List Nat) (hlen : buf.length ≤ MAX_MESSAGE_LEN) :
    (∀ bits : List Bool, (stuff_bits bits 0).length ≤ bits.length + bits.length / 5 ∧
        4 * (stuff_bits bits 0).length ≤ 5 * bits.length) ∧
      FRAME_BITS_MAX = 256 * 10 + 32 ∧
      (stuff_bits (payload_bits_of buf) 0).length + 8 ≤ FRAME_BITS_MAX ∧
      (read_message (spec_encode buf) out).diag ≠ some Diag.FrameTooLong := by
  have hpl := payload_bits_of_length buf
  have hsl := stuff_bits_length_le (payload_bits_of buf) 0 (by norm_num)
  have hmax : MAX_MESSAGE_LEN = 256 := rfl
  have hfmax : FRAME_BITS_MAX = 2592 := rfl
  refine ⟨?_, rfl, by omega, ?_⟩
  · intro bits
    have h := stuff_bits_length_le bits 0 (by norm_num)
    constructor <;> omega
  · rw [read_message_diag_eq, stream_bits_spec_encode, spec_wire_bits_eq,
      read_message_bits_frame_diag buf out _ hlen]
    simp

theorem frame_buffer_suffices_witness :
    (stuff_bits (payload_bits_of (List.replicate 256 0xFF)) 0).length + 8 ≤ FRAME_BITS_MAX ∧
      (read_message (spec_encode (List.replicate 256 0xFF)) []).diag ≠
        some Diag.FrameTooLong :=
  have h := frame_buffer_suffices (List.replicate 256 0xFF) []
    (by rw [List.length_replicate]; decide)
  ⟨h.2.2.1, h.2.2.2⟩

/-- C19 fails as stated: for the payload 0xFF the stuffed bits begin with a run of five
1-bits; the stuffed 0-bit comes after the fifth 1-bit, not after the fourth. -/
theorem stuffed_bits_have_run_of_five :
    stuff_bits (payload_bits_of [0xFF]) 0 =
        [true, true, true, true, true, false, true, true, true] ∧
      ((stuff_bits (payload_bits_of [0xFF]) 0).drop 0).take 5 = List.replicate 5 true := by
  decide

/-- C19, amended: for every payload, in the bits that the stuffing loop of
`write_message` hands to `write_bit` no run of consecutive 1-bits is longer than 5: at
no bit offset do six 1-bits follow one another. -/
theorem stuffed_bits_run_cap (buf : List Nat) (w : Writer) (i : Nat) :
    write_message_bytes buf w 0 =
        (write_bits (stuff_bits (payload_bits_of buf) 0) w).map
          (fun w1 => (w1, stuff_ones (payload_bits_of buf) 0)) ∧
      ((stuff_bits (payload_bits_of buf) 0).drop i).take 6 ≠ List.replicate 6 true := by
  refine ⟨write_message_bytes_eq buf w 0, ?_⟩
  intro h
  have h6 := six_run_of_window _ 0 _ h
  rw [six_run_stuff_bits _ 0 (by norm_num)] at h6
  exact Bool.false_ne_true h6

/-! ## The malformed-frame diagnostic -/

/-- Once 7 bits are stored the capture loop cannot report a malformed frame. -/
theorem capture_frame_bits_no_frame_error (rest frame_bits : List Bool) (window : Nat)
    (h7 : 7 ≤ frame_bits.length) :
    capture_frame_bits rest frame_bits window ≠ .error Diag.FrameError := by
  induction rest generalizing frame_bits window with
  | nil => simp [capture_frame_bits]
  | cons bit rest ih =>
    simp only [capture_frame_bits, List.length_append, List.length_singleton]
    split_ifs with h1 h2 h3
    · simp
    · omega
    · simp
    · exact ih _ _ (by simp only [List.length_append, List.length_singleton]; omega)

theorem bits_value_seven : ∀ b1 b2 b3 b4 b5 b6 b7 : Bool,
    bits_value [b1, b2, b3, b4, b5, b6, b7] = 126 ↔
      [b1, b2, b3, b4, b5, b6, b7] = [true, true, true, true, true, true, false] := by
  decide

/-- While fewer than 7 bits are stored the window is the value of the stored bits, and
the capture loop reports a malformed frame exactly when the bits that bring the count to
7 make that value `0x7E`. -/
theorem capture_frame_bits_frame_error_iff (rest frame_bits : List Bool) (window : Nat)
    (k : Nat) (hk : frame_bits.length = k) (h6 : k ≤ 6) (hw : window < 2 ^ k) :
    capture_frame_bits rest frame_bits window = .error Diag.FrameError ↔
      6 - k < rest.length ∧
        window * 2 ^ (7 - k) + bits_value (rest.take (7 - k)) = 126 := by
  induction rest generalizing frame_bits window k with
  | nil => simp [capture_frame_bits]
  | cons bit rest ih =>
    have hmax : ¬ frame_bits.length = FRAME_BITS_MAX := by
      rw [hk]
      have : FRAME_BITS_MAX = 2592 := rfl
      omega
    have hb : bit.toNat ≤ 1 := Bool.toNat_le bit
    have hlt : window < 64 := by
      calc window < 2 ^ k := hw
        _ ≤ 2 ^ 6 := Nat.pow_le_pow_right (by norm_num) h6
    have hsw : shift_window window bit = 2 * window + bit.toNat := by
      rw [shift_window_eq]
      omega
    have hmaxk : ¬ k = FRAME_BITS_MAX := by
      rw [← hk]
      exact hmax
    simp only [capture_frame_bits, hsw, List.length_append,
      List.length_singleton, hk, hmaxk, if_false, FLAG]
    by_cases hk6 : k = 6
    · subst hk6
      simp only [Nat.sub_self, Nat.lt_irrefl, List.length_cons, Nat.reduceSub, pow_one,
        List.take_succ_cons, List.take_zero]
      have hbv : bits_value [bit] = bit.toNat := by simp [bits_value]
      rw [hbv]
      by_cases hf : 2 * window + bit.toNat = 126
      · simp only [hf, if_true]
        norm_num
        omega
      · simp only [hf, if_false]
        constructor
        · intro h
          exact absurd h (capture_frame_bits_no_frame_error _ _ _
            (by simp only [List.length_append, List.length_singleton]; omega))
        · intro h
          omega
    · have hk5 : k ≤ 5 := by omega
      have hw2 : 2 * window + bit.toNat < 2 ^ (k + 1) := by
        rw [pow_succ]
        omega
      have hne : ¬ 2 * window + bit.toNat = 126 := by
        have : 2 ^ (k + 1) ≤ 2 ^ 6 := Nat.pow_le_pow_right (by norm_num) (by omega)
        omega
      simp only [hne, if_false]
      rw [ih (frame_bits ++ [bit]) _ (k + 1)
        (by simp only [List.length_append, List.length_singleton, hk]) (by omega) hw2]
      have h7 : 7 - k = (6 - k) + 1 := by omega
      have h7' : 7 - (k + 1) = 6 - k := by omega
      rw [h7, List.take_succ_cons, bits_value_cons, h7', List.length_take, List.length_cons]
      constructor
      · rintro ⟨h1, h2⟩
        refine ⟨by omega, ?_⟩
        rw [min_eq_left (by omega)]
        rw [← h2, pow_succ]
        ring
      · rintro ⟨h1, h2⟩
        refine ⟨by omega, ?_⟩
        rw [min_eq_left (by omega)] at h2
        rw [← h2, pow_succ]
        ring

/-- The bits taken by a successful capture: the frame, the 8 bits of the end flag, and
the bits left. -/
theorem capture_frame_bits_ok_count (rest frame_bits : List Bool) (window : Nat)
    (frame rest2 : List Bool)
    (h : capture_frame_bits rest frame_bits window = .ok (frame, rest2)) :
    frame.length + 8 + rest2.length = frame_bits.length + rest.length := by
  induction rest generalizing frame_bits window with
  | nil => simp [capture_frame_bits] at h
  | cons bit rest ih =>
    simp only [capture_frame_bits, List.length_append, List.length_singleton] at h
    by_cases h1 : frame_bits.length = FRAME_BITS_MAX
    · simp [h1] at h
    · simp only [h1, if_false] at h
      by_cases h2 : shift_window window bit = FLAG
      · simp only [h2, if_true] at h
        by_cases h3 : frame_bits.length + 1 < 8
        · simp [h3] at h
        · simp only [h3, if_false, Except.ok.injEq, Prod.mk.injEq] at h
          obtain ⟨hf, hr⟩ := h
          rw [← hf, ← hr]
          simp only [List.length_take, List.length_append, List.length_singleton,
            List.length_cons, List.length_nil]
          omega
      · simp only [h2, if_false] at h
        have := ih _ _ h
        simp only [List.length_append, List.length_singleton, List.length_cons,
          List.length_nil] at this ⊢
        omega

theorem unstuff_error_kind (frame payload_bits : List Bool) (ones : Nat) (d : Diag)
    (h : unstuff frame payload_bits ones = .error d) :
    d = Diag.ProtocolError ∨ d = Diag.PayloadTooBig := by
  induction frame generalizing payload_bits ones with
  | nil => simp [unstuff] at h
  | cons bit rest ih =>
    simp only [unstuff] at h
    split_ifs at h with h1 h2 h3 h4 h5
    · simp only [Except.error.injEq] at h
      exact Or.inl h.symm
    · simp only [Except.error.injEq] at h
      exact Or.inr h.symm
    · exact ih _ _ h
    · exact ih _ _ h
    · simp only [Except.error.injEq] at h
      exact Or.inr h.symm
    · exact ih _ _ h

theorem seven_bits (l : List Bool) (hl : l.length = 7) :
    ∃ b1 b2 b3 b4 b5 b6 b7, l = [b1, b2, b3, b4, b5, b6, b7] := by
  match l, hl with
  | [b1, b2, b3, b4, b5, b6, b7], _ => exact ⟨_, _, _, _, _, _, _, rfl⟩

/-- After the start flag, the capture loop reports a malformed frame exactly when the
next 7 bits are 1111110. -/
theorem capture_frame_bits_pseudo_flag (rest : List Bool) :
    capture_frame_bits rest [] 0 = .error Diag.FrameError ↔
      rest.take 7 = [true, true, true, true, true, true, false] := by
  rw [capture_frame_bits_frame_error_iff rest [] 0 0 rfl (by norm_num) (by norm_num)]
  simp only [Nat.sub_zero, zero_mul, zero_add]
  constructor
  · rintro ⟨h1, h2⟩
    obtain ⟨b1, b2, b3, b4, b5, b6, b7, hl⟩ := seven_bits (rest.take 7)
      (by rw [List.length_take]; omega)
    rw [hl] at h2 ⊢
    exact (bits_value_seven b1 b2 b3 b4 b5 b6 b7).mp h2
  · intro h
    have hl := congrArg List.length h
    simp only [List.length_take, List.length_cons, List.length_nil] at hl
    refine ⟨by omega, ?_⟩
    rw [h]
    decide

/-- C20: when the start flag has been recognised, `read_message` fails with the
malformed-frame diagnostic if and only if the 7 bits right after the start flag are
1111110. Whenever the capture loop does recognise an end flag, the bits it took are the
frame and 8 more, so at least 8. And when the 8 bits right after the start flag are the
flag itself, the frame has no bits and `read_message` returns 0 without a diagnostic,
leaving the buffer as it was. -/
theorem read_message_frame_error_iff (stream out : List Nat) (rest : List Bool)
    (hstart : find_start_flag_bits (stream_bits stream) 0 = some rest) :
    ((read_message stream out).diag = some Diag.FrameError ↔
        rest.take 7 = [true, true, true, true, true, true, false]) ∧
      (∀ frame rest2, capture_frame_bits rest [] 0 = .ok (frame, rest2) →
        frame.length + 8 + rest2.length = rest.length) ∧
      (rest.take 8 = flag_bits →
        (read_message stream out).ret = 0 ∧ (read_message stream out).diag = none ∧
          (read_message stream out).out = out) := by
  refine ⟨?_, ?_, ?_⟩
  · rw [← capture_frame_bits_pseudo_flag, read_message_diag_eq]
    unfold read_message_bits
    rw [hstart]
    simp only
    cases hc : capture_frame_bits rest [] 0 with
    | error d => simp
    | ok p =>
      obtain ⟨frame, rest2⟩ := p
      simp only [reduceCtorEq, iff_false]
      cases hu : unstuff frame [] 0 with
      | error d =>
        simp only [Option.some.injEq]
        rcases unstuff_error_kind _ _ _ _ hu with rfl | rfl <;> simp
      | ok payload_bits =>
        simp only
        split_ifs <;> simp
  · intro frame rest2 hc
    simpa using capture_frame_bits_ok_count rest [] 0 frame rest2 hc
  · intro h8
    have hrest : rest = stuff_bits [] 0 ++ flag_bits ++ rest.drop 8 := by
      rw [← h8]
      simp [stuff_bits]
    have hcap := capture_frame_bits_frame [] (rest.drop 8) (by decide)
    rw [← hrest] at hcap
    have h := read_message_bits_of_unstuffed _ out rest _ _ [] hstart hcap
      (by simp [stuff_bits, unstuff])
    rw [read_message_ret_eq, read_message_diag_eq, read_message_out_eq, h]
    simp [pack_bytes]

theorem read_message_frame_error_iff_witness :
    (read_message [0x7E, 0xFC] [6]).diag = some Diag.FrameError ∧
      ((read_message [0x7E, 0x7E] [6]).ret = 0 ∧ (read_message [0x7E, 0x7E] [6]).diag = none ∧
        (read_message [0x7E, 0x7E] [6]).out = [6]) :=
  ⟨(read_message_frame_error_iff [0x7E, 0xFC] [6]
      [true, true, true, true, true, true, false, false] (by decide)).1.mpr (by decide),
    (read_message_frame_error_iff [0x7E, 0x7E] [6] flag_bits (by decide)).2.2 (by decide)⟩

/-! ## The sliding window and the windows of the bit stream -/

theorem find_start_flag_bits_append (bits tail : List Bool) (window : Nat)
    (h : no_flag_seen bits window = true) :
    find_start_flag_bits (bits ++ tail) window =
      find_start_flag_bits tail (window_after bits window) := by
  induction bits generalizing window with
  | nil => rfl
  | cons bit rest ih =>
    simp only [no_flag_seen, Bool.and_eq_true, decide_eq_true_eq] at h
    simp only [List.cons_append, find_start_flag_bits, h.1, if_false, window_after]
    exact ih _ h.2

theorem mod_mul_add (x c d : Nat) : ((x % 256) * c + d) % 256 = (x * c + d) % 256 := by
  rw [Nat.add_mod, Nat.mul_mod, Nat.mod_mod, ← Nat.mul_mod, ← Nat.add_mod]

/-- The window holds the last 8 bits shifted in: its value is that of all the bits so
far, modulo 256. -/
theorem window_after_eq (bits : List Bool) (window : Nat) (hw : window < 256) :
    window_after bits window = (window * 2 ^ bits.length + bits_value bits) % 256 := by
  induction bits generalizing window with
  | nil =>
    simp only [window_after, bits_value, List.length_nil, pow_zero, mul_one, List.foldl_nil,
      add_zero]
    omega
  | cons bit rest ih =>
    simp only [window_after]
    rw [ih _ (by rw [shift_window_eq]; omega), shift_window_eq, mod_mul_add, bits_value_cons,
      List.length_cons, pow_succ]
    congr 1
    ring

theorem no_flag_seen_iff (bits : List Bool) (window : Nat) :
    no_flag_seen bits window = true ↔
      ∀ m, 1 ≤ m → m ≤ bits.length → window_after (bits.take m) window ≠ FLAG := by
  induction bits generalizing window with
  | nil =>
    simp only [no_flag_seen, List.length_nil, true_iff]
    intro m h1 h2
    omega
  | cons bit rest ih =>
    simp only [no_flag_seen, Bool.and_eq_true, decide_eq_true_eq, List.length_cons, ih]
    constructor
    · rintro ⟨h0, h⟩ m h1 h2
      obtain ⟨m, rfl⟩ : ∃ k, m = k + 1 := ⟨m - 1, by omega⟩
      rw [List.take_succ_cons, window_after]
      cases m with
      | zero => simpa [window_after] using h0
      | succ m => exact h (m + 1) (by omega) (by omega)
    · intro h
      constructor
      · simpa [window_after] using h 1 (by omega) (by omega)
      · intro m h1 h2
        have := h (m + 1) (by omega) (by omega)
        rwa [List.take_succ_cons, window_after] at this

theorem bits_value_append (a b : List Bool) :
    bits_value (a ++ b) = bits_value a * 2 ^ b.length + bits_value b := by
  induction a with
  | nil => simp [bits_value]
  | cons bit rest ih =>
    rw [List.cons_append, bits_value_cons, bits_value_cons, ih, List.length_append, pow_add]
    ring

theorem bits_value_eight : ∀ b1 b2 b3 b4 b5 b6 b7 b8 : Bool,
    bits_value [b1, b2, b3, b4, b5, b6, b7, b8] = 126 ↔
      [b1, b2, b3, b4, b5, b6, b7, b8] =
        [false, true, true, true, true, true, true, false] := by
  decide

theorem eight_bits (l : List Bool) (hl : l.length = 8) :
    ∃ b1 b2 b3 b4 b5 b6 b7 b8, l = [b1, b2, b3, b4, b5, b6, b7, b8] := by
  match l, hl with
  | [b1, b2, b3, b4, b5, b6, b7, b8], _ => exact ⟨_, _, _, _, _, _, _, _, rfl⟩

/-- When the bits hold no 8-bit window equal to the flag and do not begin with 1111110,
the sliding window started at 0 never reads `0x7E` on them. -/
theorem no_flag_seen_of_no_window (bits : List Bool)
    (hwin : ∀ i, (bits.drop i).take 8 ≠ flag_bits)
    (hhead : bits.take 7 ≠ [true, true, true, true, true, true, false]) :
    no_flag_seen bits 0 = true := by
  rw [no_flag_seen_iff]
  intro m h1 h2
  rw [window_after_eq _ 0 (by norm_num), zero_mul, zero_add, FLAG]
  have hlt := bits_value_lt (bits.take m)
  rw [List.length_take, min_eq_left h2] at hlt
  by_cases h8 : 8 ≤ m
  · obtain ⟨k, rfl⟩ : ∃ k, m = k + 8 := ⟨m - 8, by omega⟩
    rw [List.take_add, bits_value_append]
    have hl8 : ((bits.drop k).take 8).length = 8 := by
      rw [List.length_take, List.length_drop]
      omega
    obtain ⟨b1, b2, b3, b4, b5, b6, b7, b8, hl⟩ := eight_bits _ hl8
    have hb := bits_value_lt ((bits.drop k).take 8)
    rw [hl8] at hb
    rw [hl8]
    intro hv
    have hv2 : bits_value ((bits.drop k).take 8) = 126 := by omega
    apply hwin k
    rw [hl] at hv2 ⊢
    rw [flag_bits_eq]
    exact (bits_value_eight b1 b2 b3 b4 b5 b6 b7 b8).mp hv2
  · by_cases h7 : m = 7
    · subst h7
      obtain ⟨b1, b2, b3, b4, b5, b6, b7, hl⟩ := seven_bits (bits.take 7)
        (by rw [List.length_take]; omega)
      intro hv
      apply hhead
      rw [hl] at hv hlt ⊢
      exact (bits_value_seven b1 b2 b3 b4 b5 b6 b7).mp (by omega)
    · have : 2 ^ m ≤ 2 ^ 6 := Nat.pow_le_pow_right (by norm_num) (by omega)
      omega

/-! ## Bytes before the frame -/

/-- The decoder once the start flag of a well-formed frame has been recognised, wherever
in the stream that happened. -/
theorem read_message_bits_of_start (bits : List Bool) (buf out : List Nat) (tail : List Bool)
    (hlen : buf.length ≤ MAX_MESSAGE_LEN) (hb : ∀ b ∈ buf, b < 256)
    (hout : buf.length ≤ out.length)
    (hstart : find_start_flag_bits bits 0 =
      some (stuff_bits (payload_bits_of buf) 0 ++ flag_bits ++ tail)) :
    read_message_bits bits out =
      (((buf.length : Nat) : Int), none, buf ++ out.drop buf.length) := by
  have hpl := payload_bits_of_length buf
  have hsl := stuff_bits_length_le (payload_bits_of buf) 0 (by norm_num)
  have hmax : MAX_MESSAGE_LEN = 256 := rfl
  have hfmax : FRAME_BITS_MAX = 2592 := rfl
  rw [read_message_bits_of_unstuffed _ out _ _ _ _ hstart
    (capture_frame_bits_frame _ _ (by omega)) (unstuff_stuff_bits _ (by omega))]
  have h3 : (payload_bits_of buf).length / 8 = buf.length := by omega
  rw [if_neg (by omega), if_neg (by omega), h3, pack_bytes_payload_bits_of buf out hb hout]

/-- The first loop of `read_message` finds the start flag of a frame at its eighth bit
when its window has not read `0x7E` on the bytes before the frame nor on the first seven
bits of the flag. -/
theorem find_start_flag_bits_after (before tail : List Bool)
    (h : no_flag_seen (before ++ [false, true, true, true, true, true, true]) 0 = true) :
    find_start_flag_bits (before ++ (flag_bits ++ tail)) 0 = some tail := by
  have hsplit : before ++ (flag_bits ++ tail) =
      (before ++ [false, true, true, true, true, true, true]) ++ (false :: tail) := by
    rw [flag_bits_eq]
    simp
  rw [hsplit, find_start_flag_bits_append _ _ _ h, window_after_eq _ 0 (by norm_num),
    bits_value_append]
  have h63 : bits_value [false, true, true, true, true, true, true] = 63 := by decide
  have hflag : shift_window ((0 * 2 ^ (before ++
      [false, true, true, true, true, true, true]).length + (bits_value before *
      2 ^ [false, true, true, true, true, true, true].length + bits_value
      [false, true, true, true, true, true, true])) % 256) false = FLAG := by
    rw [shift_window_eq, h63, FLAG]
    simp only [zero_mul, zero_add, List.length_cons, List.length_nil, Bool.toNat_false,
      add_zero]
    omega
  simp only [find_start_flag_bits, hflag, if_true]

/-- C14 fails as stated: the byte 0x3F (bits 00111111) holds no window equal to 0x7E,
but its last seven bits and the first bit of the following start flag read 01111110.
`read_message` takes that for the start flag, then meets the remaining seven bits
1111110 of the real flag and fails with the malformed-frame diagnostic. -/
theorem read_message_garbage_hides_flag :
    (∀ i, ((stream_bits [0x3F]).drop i).take 8 ≠ flag_bits) ∧
      spec_encode [0x41] = [0x7E, 0x41, 0x7E] ∧
      (read_message ([0x3F] ++ spec_encode [0x41]) [0]).ret = -1 ∧
      (read_message ([0x3F] ++ spec_encode [0x41]) [0]).diag = some Diag.FrameError := by
  refine ⟨?_, by decide, ?_, ?_⟩
  · intro i h
    have hb : stream_bits [0x3F] = [false, false, true, true, true, true, true, true] := by
      decide
    rw [hb, flag_bits_eq] at h
    cases i with
    | zero => simp at h
    | succ i =>
      have hl := congrArg List.length h
      simp only [List.length_take, List.length_drop, List.length_cons, List.length_nil] at hl
      omega
  · rw [read_message_ret_eq]
    decide
  · rw [read_message_diag_eq]
    decide

/-- C14, amended: let the bytes before the frame be such that their bits, followed by
the first seven bits 0111111 of the start flag, hold no 8-bit window equal to 0x7E at
any bit offset, and do not begin with 1111110. Then for every payload of at most 256
bytes `read_message` applied to those bytes followed by the encoded frame returns the
payload length and stores the payload. -/
theorem read_message_after_garbage (garbage payload out : List Nat)
    (hlen : payload.length ≤ MAX_MESSAGE_LEN) (hb : ∀ b ∈ payload, b < 256)
    (hout : payload.length ≤ out.length)
    (hwin : ∀ i, ((stream_bits garbage ++
      [false, true, true, true, true, true, true]).drop i).take 8 ≠ flag_bits)
    (hhead : (stream_bits garbage).take 7 ≠ [true, true, true, true, true, true, false]) :
    (read_message (garbage ++ spec_encode payload) out).ret = payload.length ∧
      (read_message (garbage ++ spec_encode payload) out).diag = none ∧
      (read_message (garbage ++ spec_encode payload) out).out =
        payload ++ out.drop payload.length := by
  have hhead2 : (stream_bits garbage ++ [false, true, true, true, true, true, true]).take 7 ≠
      [true, true, true, true, true, true, false] := by
    cases garbage with
    | nil => decide
    | cons c rest =>
      rw [List.take_append_of_le_length
        (by rw [stream_bits_length, List.length_cons]; omega)]
      exact hhead
  have hseen := no_flag_seen_of_no_window _ hwin hhead2
  have hstart : find_start_flag_bits (stream_bits (garbage ++ spec_encode payload)) 0 =
      some (stuff_bits (payload_bits_of payload) 0 ++ flag_bits ++
        List.replicate (spec_fill (frame_bits_of payload).length) true) := by
    rw [stream_bits_append, stream_bits_spec_encode, spec_wire_bits_eq, frame_bits_of]
    simp only [List.append_assoc]
    rw [find_start_flag_bits_after _ _ hseen]
  have h := read_message_bits_of_start _ payload out _ hlen hb hout hstart
  rw [read_message_ret_eq, read_message_diag_eq, read_message_out_eq, h]
  exact ⟨rfl, rfl, rfl⟩

theorem read_message_after_garbage_witness :
    (read_message ([0xFF, 0x00] ++ spec_encode [0x41]) [0, 0]).ret = 1 ∧
      (read_message ([0xFF, 0x00] ++ spec_encode [0x41]) [0, 0]).diag = none ∧
      (read_message ([0xFF, 0x00] ++ spec_encode [0x41]) [0, 0]).out = [0x41, 0] := by
  have hw : ∀ i, ((stream_bits [0xFF, 0x00] ++
      [false, true, true, true, true, true, true]).drop i).take 8 ≠ flag_bits := by
    intro i h
    have hi : i < 16 := by
      by_contra hge
      have hl := congrArg List.length h
      simp only [List.length_take, List.length_drop, List.length_append, stream_bits_length,
        List.length_cons, List.length_nil, flag_bits_eq] at hl
      omega
    interval_cases i <;> exact absurd h (by decide)
  exact read_message_after_garbage [0xFF, 0x00] [0x41] [0, 0] (by decide) (by decide)
    (by decide) hw (by decide)

/-! ## What a call of `read_message` leaves in the stream -/

theorem read_bit_follows {orig : List Nat} {r r1 : Reader} {bit : Bool}
    (hf : r.follows orig) (h : read_bit r = some (bit, r1)) : r1.follows orig := by
  obtain ⟨⟨pre, hpre⟩, h1, h2⟩ := hf
  unfold read_bit read_bit_refill at h
  by_cases hneg : r.bit_pos < 0
  · rw [if_pos hneg] at h
    cases hs : r.stream with
    | nil => simp [hs] at h
    | cons c rest =>
      simp only [hs, Option.some.injEq, Prod.mk.injEq] at h
      obtain ⟨-, rfl⟩ := h
      refine ⟨⟨pre ++ [c], ?_⟩, by simp, by simp⟩
      rw [hpre, hs]
      simp
  · rw [if_neg hneg] at h
    simp only [Option.some.injEq, Prod.mk.injEq] at h
    obtain ⟨-, rfl⟩ := h
    exact ⟨⟨pre, hpre⟩, by simp only; omega, by simp only; omega⟩

theorem find_start_flag_follows {orig : List Nat} (r : Reader) (window : Nat) (r1 : Reader)
    (hf : r.follows orig) (h : find_start_flag r window = some r1) : r1.follows orig := by
  generalize hl : r.bits = l at *
  induction l generalizing r window with
  | nil =>
    rw [find_start_flag_eof window (read_bit_of_bits_nil hl)] at h
    simp at h
  | cons bit rest ih =>
    obtain ⟨r2, hr, hrest⟩ := read_bit_of_bits_cons hl
    rw [find_start_flag_step window hr] at h
    by_cases hw : shift_window window bit = FLAG
    · rw [if_pos hw] at h
      simp only [Option.some.injEq] at h
      rw [← h]
      exact read_bit_follows hf hr
    · rw [if_neg hw] at h
      exact ih r2 _ (read_bit_follows hf hr) h hrest

theorem capture_frame_follows {orig : List Nat} (r : Reader) (frame_bits : List Bool)
    (window : Nat) (frame : List Bool) (r2 : Reader) (hf : r.follows orig)
    (h : capture_frame r frame_bits window = .ok (frame, r2)) : r2.follows orig := by
  generalize hl : r.bits = l at *
  induction l generalizing r frame_bits window with
  | nil =>
    rw [capture_frame_eof frame_bits window (read_bit_of_bits_nil hl)] at h
    simp at h
  | cons bit rest ih =>
    obtain ⟨r1, hr, hrest⟩ := read_bit_of_bits_cons hl
    rw [capture_frame_step frame_bits window hr] at h
    by_cases h1 : frame_bits.length = FRAME_BITS_MAX
    · simp [h1] at h
    · rw [if_neg h1] at h
      by_cases hw : shift_window window bit = FLAG
      · rw [if_pos hw] at h
        by_cases h8 : (frame_bits ++ [bit]).length < 8
        · rw [if_pos h8] at h
          simp at h
        · rw [if_neg h8] at h
          simp only [Except.ok.injEq, Prod.mk.injEq] at h
          rw [← h.2]
          exact read_bit_follows hf hr
      · rw [if_neg hw] at h
        exact ih r1 _ _ (read_bit_follows hf hr) h hrest

/-- The unread bytes of a reader are the last bytes of the stream, as many as the whole
bytes among the bits it can still deliver. -/
theorem stream_of_follows {orig : List Nat} {r : Reader} (hf : r.follows orig) :
    r.stream = orig.drop (orig.length - r.bits.length / 8) := by
  obtain ⟨⟨pre, hpre⟩, h1, h2⟩ := hf
  have hlen : r.bits.length / 8 = r.stream.length := by
    simp only [Reader.bits, List.length_append, low_bits_length, stream_bits_length]
    omega
  rw [hlen, hpre, List.length_append, Nat.add_sub_cancel, List.drop_left]

/-- After a successful capture `read_message` leaves in the stream the bytes that come
after the byte holding the last bit of the end flag. -/
theorem read_message_stream_eq (stream out : List Nat) (rest frame rest2 : List Bool)
    (hstart : find_start_flag_bits (stream_bits stream) 0 = some rest)
    (hcap : capture_frame_bits rest [] 0 = .ok (frame, rest2)) :
    (read_message stream out).stream = stream.drop (stream.length - rest2.length / 8) := by
  have hf0 : Reader.follows stream { stream := stream, curr_byte := 0, bit_pos := -1 } :=
    ⟨⟨[], rfl⟩, by simp, by simp⟩
  have h1 := find_start_flag_bits_eq { stream := stream, curr_byte := 0, bit_pos := -1 } 0
  rw [initial_reader_bits, hstart] at h1
  cases hfs : find_start_flag { stream := stream, curr_byte := 0, bit_pos := -1 } 0 with
  | none => simp [hfs] at h1
  | some r1 =>
    rw [hfs] at h1
    simp only [Option.map_some', Option.some.injEq] at h1
    have hf1 := find_start_flag_follows _ _ _ hf0 hfs
    have h2 := capture_frame_bits_eq r1 [] 0
    rw [h1, hcap] at h2
    cases hc : capture_frame r1 [] 0 with
    | error e =>
      rw [hc] at h2
      simp at h2
    | ok p =>
      obtain ⟨fr, r2⟩ := p
      rw [hc] at h2
      simp only [Except.ok.injEq, Prod.mk.injEq] at h2
      have hf2 := capture_frame_follows _ _ _ _ _ hf1 hc
      have hs := stream_of_follows hf2
      rw [← h2.2] at hs
      unfold read_message
      rw [hfs]
      simp only [hc]
      cases unstuff fr [] 0 with
      | error d => exact hs
      | ok payload_bits =>
        simp only
        split_ifs <;> exact hs

/-! ## Successive frames -/

theorem write_bits_whole_bytes_data (n : Nat) (bits : List Bool) (s : OStream) (w : Writer)
    (hlen : bits.length = 8 * n)
    (h : write_bits bits { stream := s, out_byte := 0, bit_pos := 7 } = some w) :
    w.stream.data = s.data ++ pack_msb_first bits ∧ w.bit_pos = 7 := by
  induction n generalizing bits s with
  | zero =>
    have : bits = [] := List.length_eq_zero.mp (by simpa using hlen)
    subst this
    simp only [write_bits, Option.some.injEq] at h
    subst h
    simp [pack_msb_first]
  | succ n ih =>
    obtain ⟨c, rest, hc, hrest, rfl⟩ := exists_chunk bits n hlen
    rw [write_bits_append, write_bits_byte c s hc] at h
    rw [pack_msb_first_chunk c rest hc]
    unfold putc at h
    by_cases hroom : s.room = 0
    · simp [hroom] at h
    · simp only [hroom, if_false, Option.map_some', Option.some_bind] at h
      obtain ⟨h1, h2⟩ := ih rest _ hrest h
      refine ⟨?_, h2⟩
      rw [h1]
      simp

/-- Whenever `write_message` returns a byte count, the count is the payload length and
the bytes appended to the stream are the wire format of the specification. -/
theorem write_message_data (stream : OStream) (buf : List Nat) (n : Nat) (s1 : OStream)
    (h : write_message stream buf = some (n, s1)) :
    n = buf.length ∧ s1.data = stream.data ++ spec_encode buf := by
  by_cases h8 : (stuff_bits (payload_bits_of buf) 0).length % 8 = 0
  · have hfl := frame_bits_of_length buf
    rw [write_message_eq] at h
    cases hw : write_bits (frame_bits_of buf)
        { stream := stream, out_byte := 0, bit_pos := 7 } with
    | none => simp [hw] at h
    | some w3 =>
      obtain ⟨hd, hp⟩ := write_bits_whole_bytes_data ((frame_bits_of buf).length / 8) _ _ _
        (by omega) hw
      simp only [hw, pad_ones_to_byte, hp, ne_eq, not_true_eq_false, if_false,
        Option.map_some', Option.some.injEq, Prod.mk.injEq] at h
      refine ⟨h.1.symm, ?_⟩
      have hfill : spec_fill (frame_bits_of buf).length = 0 := by
        unfold spec_fill
        omega
      rw [← h.2, hd, spec_encode, spec_wire_bits_eq, hfill, List.replicate_zero,
        List.append_nil]
  · rw [write_message_fails_of_partial_byte stream buf h8] at h
    simp at h

/-- The decoder on a frame in the wire format of the specification followed by more
bytes: it returns the payload and leaves exactly the bytes after the frame unread. -/
theorem read_message_spec_frame_then (payload more out : List Nat)
    (hlen : payload.length ≤ MAX_MESSAGE_LEN) (hb : ∀ b ∈ payload, b < 256)
    (hout : payload.length ≤ out.length) :
    (read_message (spec_encode payload ++ more) out).ret = payload.length ∧
      (read_message (spec_encode payload ++ more) out).diag = none ∧
      (read_message (spec_encode payload ++ more) out).out =
        payload ++ out.drop payload.length ∧
      (read_message (spec_encode payload ++ more) out).stream = more := by
  have hpl := payload_bits_of_length payload
  have hsl := stuff_bits_length_le (payload_bits_of payload) 0 (by norm_num)
  have hmax : MAX_MESSAGE_LEN = 256 := rfl
  have hfmax : FRAME_BITS_MAX = 2592 := rfl
  have hfill := (spec_fill_spec (frame_bits_of payload).length).1
  have hstart : find_start_flag_bits (stream_bits (spec_encode payload ++ more)) 0 =
      some (stuff_bits (payload_bits_of payload) 0 ++ flag_bits ++
        (List.replicate (spec_fill (frame_bits_of payload).length) true ++
          stream_bits more)) := by
    rw [stream_bits_append, stream_bits_spec_encode, spec_wire_bits_eq, frame_bits_of]
    simp only [List.append_assoc]
    rw [find_start_flag_bits_flag]
  have h := read_message_bits_of_start _ payload out _ hlen hb hout hstart
  have hs := read_message_stream_eq _ out _ _ _ hstart
    (capture_frame_bits_frame _ _ (by omega))
  rw [read_message_ret_eq, read_message_diag_eq, read_message_out_eq, h]
  refine ⟨rfl, rfl, rfl, ?_⟩
  rw [hs, List.length_append, List.length_append, List.length_replicate, stream_bits_length]
  have hdiv : (spec_fill (frame_bits_of payload).length + 8 * more.length) / 8 =
      more.length := by omega
  rw [hdiv, Nat.add_sub_cancel, List.drop_left]

/-- Two frames in the wire format of the specification, for all payloads of at most 256
bytes: a first call of `read_message` returns the first payload and leaves unread
exactly the bytes of the second frame (it takes the byte holding the last bit of the end
flag, fill bits included, and no byte beyond); a second call on the bytes left returns
the second payload and leaves nothing unread. These are the bytes in the stream whenever
`write_message` has returned a byte count for the first payload on an empty stream and
then for the second on the same stream. -/
theorem read_message_two_spec_frames (p1 p2 out1 out2 : List Nat)
    (hlen1 : p1.length ≤ MAX_MESSAGE_LEN) (hb1 : ∀ b ∈ p1, b < 256)
    (hout1 : p1.length ≤ out1.length)
    (hlen2 : p2.length ≤ MAX_MESSAGE_LEN) (hb2 : ∀ b ∈ p2, b < 256)
    (hout2 : p2.length ≤ out2.length) :
    (∀ room n1 n2 s1 s2, write_message { data := [], room := room } p1 = some (n1, s1) →
        write_message s1 p2 = some (n2, s2) →
        s2.data = spec_encode p1 ++ spec_encode p2) ∧
      (read_message (spec_encode p1 ++ spec_encode p2) out1).ret = p1.length ∧
      (read_message (spec_encode p1 ++ spec_encode p2) out1).diag = none ∧
      (read_message (spec_encode p1 ++ spec_encode p2) out1).out =
        p1 ++ out1.drop p1.length ∧
      (read_message (spec_encode p1 ++ spec_encode p2) out1).stream = spec_encode p2 ∧
      (read_message (read_message (spec_encode p1 ++ spec_encode p2) out1).stream out2).ret =
        p2.length ∧
      (read_message (read_message (spec_encode p1 ++ spec_encode p2) out1).stream out2).diag =
        none ∧
      (read_message (read_message (spec_encode p1 ++ spec_encode p2) out1).stream out2).out =
        p2 ++ out2.drop p2.length ∧
      (read_message (read_message (spec_encode p1 ++ spec_encode p2) out1).stream
        out2).stream = [] := by
  obtain ⟨a1, a2, a3, a4⟩ := read_message_spec_frame_then p1 (spec_encode p2) out1 hlen1 hb1
    hout1
  have hb := read_message_spec_frame_then p2 [] out2 hlen2 hb2 hout2
  rw [List.append_nil] at hb
  obtain ⟨b1, b2, b3, b4⟩ := hb
  refine ⟨?_, a1, a2, a3, a4, ?_⟩
  · intro room n1 n2 s1 s2 hw1 hw2
    obtain ⟨-, hd1⟩ := write_message_data _ _ _ _ hw1
    obtain ⟨-, hd2⟩ := write_message_data _ _ _ _ hw2
    simp only [List.nil_append] at hd1
    rw [hd2, hd1]
  · rw [a4]
    exact ⟨b1, b2, b3, b4⟩

/-! ## Streams without a flag -/

/-- On a stream whose bits hold no 8-bit window equal to 0x7E and do not begin with
1111110, `read_message` returns -1 with the diagnostic for a start flag that was not
found, and leaves the buffer as it was. -/
theorem read_message_no_start_flag (stream out : List Nat)
    (hwin : ∀ i, ((stream_bits stream).drop i).take 8 ≠ flag_bits)
    (hhead : (stream_bits stream).take 7 ≠ [true, true, true, true, true, true, false]) :
    (read_message stream out).ret = -1 ∧
      (read_message stream out).diag = some Diag.SyncError ∧
      (read_message stream out).out = out := by
  have hseen := no_flag_seen_of_no_window _ hwin hhead
  have hnone : find_start_flag_bits (stream_bits stream) 0 = none := by
    have h := find_start_flag_bits_append (stream_bits stream) [] 0 hseen
    rw [List.append_nil] at h
    rw [h]
    rfl
  rw [read_message_ret_eq, read_message_diag_eq, read_message_out_eq]
  unfold read_message_bits
  rw [hnone]
  exact ⟨rfl, rfl, rfl⟩

/-! ## The destuffing pass on stuffed bits -/

/-- The stuffing pass hands exactly the bits `stuff_bits` to `write_bit`, for any
sequence of payload bits. -/
theorem write_message_bits_eq (bits : List Bool) (w : Writer) (ones : Nat) :
    write_message_bits bits w ones =
      (write_bits (stuff_bits bits ones) w).map (fun w1 => (w1, stuff_ones bits ones)) := by
  induction bits generalizing w ones with
  | nil => rfl
  | cons bit rest ih =>
    have hcons : bit :: rest = [bit] ++ rest := rfl
    rw [hcons, stuff_bits_append, stuff_ones_append, write_bits_append]
    simp only [List.singleton_append, write_message_bits]
    rw [write_message_bit_eq]
    cases write_bits (stuff_bits [bit] ones) w with
    | none => rfl
    | some w1 => exact ih w1 _

/-- The stuffing loop over the bytes of a payload is the stuffing pass on its bits. -/
theorem write_message_bytes_eq_bits (buf : List Nat) (w : Writer) (ones : Nat) :
    write_message_bytes buf w ones = write_message_bits (payload_bits_of buf) w ones := by
  rw [write_message_bytes_eq, write_message_bits_eq]

/-- The check `payload_len > FRAME_BITS_MAX` of the destuffing loop cannot fire on a
frame that fits the frame buffer. -/
theorem unstuff_not_too_big (frame payload_bits : List Bool) (ones : Nat)
    (hlen : payload_bits.length + frame.length ≤ FRAME_BITS_MAX) :
    unstuff frame payload_bits ones ≠ .error Diag.PayloadTooBig := by
  induction frame generalizing payload_bits ones with
  | nil => simp [unstuff]
  | cons bit rest ih =>
    simp only [List.length_cons] at hlen
    simp only [unstuff, List.length_append, List.length_singleton]
    split_ifs with h1 h2 h3 h4 h5
    · simp
    · omega
    · exact ih _ _ (by simp only [List.length_append, List.length_singleton]; omega)
    · exact ih _ _ (by omega)
    · omega
    · exact ih _ _ (by simp only [List.length_append, List.length_singleton]; omega)

theorem capture_frame_bits_error_kind (rest frame_bits : List Bool) (window : Nat)
    (d : Diag) (h : capture_frame_bits rest frame_bits window = .error d) :
    d = Diag.UnexpectedEOF ∨ d = Diag.FrameTooLong ∨ d = Diag.FrameError := by
  induction rest generalizing frame_bits window with
  | nil =>
    simp only [capture_frame_bits, Except.error.injEq] at h
    exact Or.inl h.symm
  | cons bit rest ih =>
    simp only [capture_frame_bits] at h
    by_cases h1 : frame_bits.length = FRAME_BITS_MAX
    · rw [if_pos h1] at h
      simp only [Except.error.injEq] at h
      exact Or.inr (Or.inl h.symm)
    · rw [if_neg h1] at h
      by_cases h2 : shift_window window bit = FLAG
      · rw [if_pos h2] at h
        by_cases h3 : (frame_bits ++ [bit]).length < 8
        · rw [if_pos h3] at h
          simp only [Except.error.injEq] at h
          exact Or.inr (Or.inr h.symm)
        · rw [if_neg h3] at h
          simp at h
      · rw [if_neg h2] at h
        exact ih _ _ h

/-- No call of `read_message` ends with the "Payload too big" diagnostic: the destuffing
loop only ever walks a captured frame, which has at most `FRAME_BITS_MAX - 8` bits. -/
theorem read_message_never_payload_too_big (stream out : List Nat) :
    (read_message stream out).diag ≠ some Diag.PayloadTooBig := by
  rw [read_message_diag_eq]
  unfold read_message_bits
  cases hs : find_start_flag_bits (stream_bits stream) 0 with
  | none => simp
  | some rest =>
    simp only
    cases hc : capture_frame_bits rest [] 0 with
    | error d =>
      simp only [ne_eq, Option.some.injEq]
      intro hd
      subst hd
      rcases capture_frame_bits_error_kind _ _ _ _ hc with h | h | h <;> simp at h
    | ok p =>
      obtain ⟨frame, rest2⟩ := p
      have hfl := capture_frame_bits_ok_length rest [] 0 frame rest2 (by simp) hc
      simp only
      cases hu : unstuff frame [] 0 with
      | error d =>
        simp only [ne_eq, Option.some.injEq]
        intro hd
        subst hd
        exact unstuff_not_too_big frame [] 0 (by simp only [List.length_nil]; omega) hu
      | ok payload_bits =>
        simp only
        split_ifs <;> simp

/-- C17: for every bit sequence `b`, of any length and not necessarily a multiple of 8,
the stuffing pass of `write_message` hands the bits `stuff_bits b 0` to `write_bit`; and
whenever these stuffed bits are the frame that `read_message` has captured, so that its
destuffing pass is applied to them, the pass succeeds and hands back exactly `b`, and
`read_message` ends neither with the diagnostic for an invalid sequence of ones nor with
"Payload too big". No bound on the length of `b` is needed beyond the frame having been
captured. -/
theorem destuffing_inverts_stuffing (b : List Bool) (w : Writer) (stream out : List Nat)
    (rest rest2 : List Bool)
    (hstart : find_start_flag_bits (stream_bits stream) 0 = some rest)
    (hcap : capture_frame_bits rest [] 0 = .ok (stuff_bits b 0, rest2)) :
    write_message_bits b w 0 =
        (write_bits (stuff_bits b 0) w).map (fun w1 => (w1, stuff_ones b 0)) ∧
      unstuff (stuff_bits b 0) [] 0 = .ok b ∧
      (read_message stream out).diag ≠ some Diag.ProtocolError ∧
      (read_message stream out).diag ≠ some Diag.PayloadTooBig := by
  have hfl := capture_frame_bits_ok_length rest [] 0 _ rest2 (by simp) hcap
  have hge := stuff_bits_length_ge b 0
  have hun := unstuff_stuff_bits b (by omega)
  refine ⟨write_message_bits_eq b w 0, hun, ?_, read_message_never_payload_too_big stream out⟩
  rw [read_message_diag_eq, read_message_bits_of_unstuffed _ out rest _ rest2 b hstart hcap hun]
  split_ifs <;> simp

theorem destuffing_inverts_stuffing_witness :
    stuff_bits [true, true, true, true, true, true, false, true, true] 0 =
        [true, true, true, true, true, false, true, false, true, true] ∧
      unstuff (stuff_bits [true, true, true, true, true, true, false, true, true] 0) [] 0 =
        .ok [true, true, true, true, true, true, false, true, true] ∧
      (read_message [0x7E, 0xFA, 0xDF, 0xBF] [3]).diag ≠ some Diag.ProtocolError :=
  have h := destuffing_inverts_stuffing
    [true, true, true, true, true, true, false, true, true]
    { stream := { data := [], room := 0 }, out_byte := 0, bit_pos := 7 }
    [0x7E, 0xFA, 0xDF, 0xBF] [3] (stream_bits [0xFA, 0xDF, 0xBF])
    [true, true, true, true, true, true] (by decide) (by rfl)
  ⟨by decide, h.2.1, h.2.2.1⟩

/-! ## Successive frames as `write_message` leaves them -/

/-- The padding loop after any number of its turns: it has made that many calls of
`write_bit` with a 1-bit and is still running. -/
theorem pad_ones_loop_unroll (m : Nat) (w : Writer) (hp : 0 ≤ w.bit_pos) :
    pad_ones_loop w = (write_bits (List.replicate m true) w).bind pad_ones_loop := by
  induction m generalizing w with
  | zero => rfl
  | succ m ih =>
    rw [pad_ones_loop_step hp, List.replicate_succ]
    simp only [write_bits]
    cases hw : write_bit w true with
    | none => rfl
    | some w1 =>
      simp only [Option.some_bind]
      have hpos := write_bit_pos hp hw
      exact ih w1 (by rw [hpos]; split_ifs <;> omega)

/-- C15 fails for a first payload whose stuffed bits do not fill whole bytes. On a stream
with room for 10 bytes, `write_message` with the payload 0xFF writes the frame
7E FB BF 7F and goes on in its padding loop until the stream holds six more bytes 0xFF
and is full; there the call fails (first two conjuncts). A second `write_message`, with
the payload 0x42, cannot write anything to the full stream. A first `read_message` on
the bytes of the stream returns the payload 0xFF and leaves the six bytes 0xFF unread; a
second `read_message` on them returns -1 with the diagnostic for a start flag that was
not found, where the claim has it return the second payload. -/
theorem successive_frames_lost_to_padding :
    write_message { data := [], room := 10 } [0xFF] =
        (pad_ones_loop
          { stream := { data := [0x7E, 0xFB, 0xBF, 0x7F, 0xFF, 0xFF, 0xFF, 0xFF, 0xFF, 0xFF],
                        room := 0 },
            out_byte := 0, bit_pos := 7 }).map (fun w4 => (1, w4.stream)) ∧
      write_message { data := [], room := 10 } [0xFF] = none ∧
      write_message
        { data := [0x7E, 0xFB, 0xBF, 0x7F, 0xFF, 0xFF, 0xFF, 0xFF, 0xFF, 0xFF], room := 0 }
        [0x42] = none ∧
      (read_message [0x7E, 0xFB, 0xBF, 0x7F, 0xFF, 0xFF, 0xFF, 0xFF, 0xFF, 0xFF] [0]).ret = 1 ∧
      (read_message [0x7E, 0xFB, 0xBF, 0x7F, 0xFF, 0xFF, 0xFF, 0xFF, 0xFF, 0xFF] [0]).out =
        [0xFF] ∧
      (read_message [0x7E, 0xFB, 0xBF, 0x7F, 0xFF, 0xFF, 0xFF, 0xFF, 0xFF, 0xFF] [0]).stream =
        [0xFF, 0xFF, 0xFF, 0xFF, 0xFF, 0xFF] ∧
      (read_message [0xFF, 0xFF, 0xFF, 0xFF, 0xFF, 0xFF] [0]).ret = -1 ∧
      (read_message [0xFF, 0xFF, 0xFF, 0xFF, 0xFF, 0xFF] [0]).diag = some Diag.SyncError := by
  have hframe : write_bits (frame_bits_of [0xFF])
      { stream := { data := [], room := 10 }, out_byte := 0, bit_pos := 7 } =
      some { stream := { data := [0x7E, 0xFB, 0xBF], room := 7 }, out_byte := 0,
             bit_pos := 6 } := by decide
  have hpad : write_bits (List.replicate 55 true)
      { stream := { data := [0x7E, 0xFB, 0xBF], room := 7 }, out_byte := 0, bit_pos := 6 } =
      some { stream := { data := [0x7E, 0xFB, 0xBF, 0x7F, 0xFF, 0xFF, 0xFF, 0xFF, 0xFF, 0xFF],
                         room := 0 },
             out_byte := 0, bit_pos := 7 } := by decide
  have hspec : [0x7E, 0xFB, 0xBF, 0x7F, 0xFF, 0xFF, 0xFF, 0xFF, 0xFF, 0xFF] =
      spec_encode [0xFF] ++ [0xFF, 0xFF, 0xFF, 0xFF, 0xFF, 0xFF] := by decide
  obtain ⟨r1, -, r3, r4⟩ := read_message_spec_frame_then [0xFF]
    [0xFF, 0xFF, 0xFF, 0xFF, 0xFF, 0xFF] [0] (by decide) (by decide) (by decide)
  rw [← hspec] at r1 r3 r4
  refine ⟨?_, write_message_fails_of_partial_byte _ _ (by decide), by decide, r1, r3, r4,
    ?_, ?_⟩
  · rw [write_message_eq, hframe]
    simp only [pad_ones_to_byte]
    rw [if_pos (by decide), pad_ones_loop_unroll 55 _ (by decide), hpad]
    rfl
  · rw [read_message_ret_eq]
    decide
  · rw [read_message_diag_eq]
    decide

end PureFlex
